import Mathlib

/-!
Shallow embedding of the CPU inference pipeline of `src/CPUPipe.cpp`
(leela-zero CPU backend with squeeze-and-excitation residual blocks).

Buffers (`std::vector<float>` / `std::array<float, _>`) are modelled as total
functions `ℕ → α` over a linear ordered field `α` (exact arithmetic in place of
`float`); writes are `Function.update`, loops are `List.foldl` over
`List.range`, and accumulation loops are `Finset.sum`.  A `std::vector`
whose `.size()` is observed by the code is modelled by `FVec` (a size paired
with the contents).  The compile-time constants of `config.h` (not part of the
sources) are modelled from the spec: the board is `n × n`, `WINOGRAD_M = 4`,
`WINOGRAD_ALPHA = 6`, `WINOGRAD_TILE = 36`, tiles per dimension
`WTILES = ceil(n / 4)`, `WINOGRAD_P = WTILES^2`, `NUM_INTERSECTIONS = n * n`,
and `SQ2` (the float `sqrt(2.0f)`) is an explicit field element `s`.
-/

namespace CPUPipe

variable {α : Type*} [LinearOrderedField α]

/-- Modelled from the spec: `WINOGRAD_WTILES` of `config.h` (missing from the
sources), "tile_index enumerates overlapping 4x4-output tiles (stride 4, so
tiles = ceil(size/4) each dimension)". -/
def WTILES (n : ℕ) : ℕ := (n + 3) / 4

/-- Modelled from the spec: `WINOGRAD_P = WINOGRAD_WTILES * WINOGRAD_WTILES`,
the number of tiles covering one padded plane. -/
def WP (n : ℕ) : ℕ := WTILES n * WTILES n

/-- The flat 6×6 input-transform matrix `Bt` of `winograd_transform_in`
(row-major, `s` stands for the constant `SQ2`). -/
def BtL (s : α) : List α :=
  [1, 0, -(5 / 2), 0, 1, 0,
   0, -s, -2, s / 2, 1, 0,
   0, s, -2, -(s / 2), 1, 0,
   0, -(s / 2), -(1 / 2), s, 1, 0,
   0, s / 2, -(1 / 2), -s, 1, 0,
   0, 1, 0, -(5 / 2), 0, 1]

/-- Entry `Bt[i * WINOGRAD_ALPHA + k]` of the input-transform matrix. -/
def Bt (s : α) (i k : ℕ) : α := (BtL s).getD (i * 6 + k) 0

/-- The flat 4×6 output-transform matrix `At` of `winograd_transform_out`
(row-major, `s` stands for the constant `SQ2`). -/
def AtL (s : α) : List α :=
  [1, 1, 1, 1, 1, 0,
   0, s / 2, -(s / 2), s, -s, 0,
   0, 1 / 2, 1 / 2, 2, 2, 0,
   0, s / 4, -(s / 4), 2 * s, -(2 * s), 1]

/-- Entry `At[i * WINOGRAD_ALPHA + q]` of the output-transform matrix. -/
def At (s : α) (i q : ℕ) : α := (AtL s).getD (i * 6 + q) 0

/-- The zero-padded input plane `in_pad` of `winograd_transform_in` during the
iteration for channel `ch`: the `n × n` plane sits at offset `(1, 1)`, all
other cells are the initial zero fill. -/
def inPad (n : ℕ) (input : ℕ → α) (ch : ℕ) (y x : ℕ) : α :=
  if 1 ≤ y ∧ y ≤ n ∧ 1 ≤ x ∧ x ≤ n then
    input (ch * (n * n) + (y - 1) * n + (x - 1))
  else 0

/-- Row `i`, column `j` of the intermediate product `T1 = Bt · tile` computed
by the first double loop of the tile transform (`T1[i][j]`). -/
def T1v (s : α) (inP : ℕ → ℕ → α) (yin xin i j : ℕ) : α :=
  ∑ k ∈ Finset.range 6, Bt s i k * inP (yin + k) (xin + j)

/-- The 36 Winograd-domain values of one tile: entry `(i, j)` of
`transpose(B) · tile · B`, i.e. `acc = Σ_k T1[i][k] * Bt[j * 6 + k]`. -/
def tileBand (s : α) (inP : ℕ → ℕ → α) (yin xin i j : ℕ) : α :=
  ∑ k ∈ Finset.range 6, T1v s inP yin xin i k * Bt s j k

/-- The working state of `winograd_transform_in`: the output buffer `V`, the
32-tile staging `buffer`, and the scalars `buffer_offset`, `buffer_entries`. -/
structure WinInSt (α : Type*) where
  V : ℕ → α
  buffer : ℕ → α
  buffer_offset : ℕ
  buffer_entries : ℕ

/-- The flush loop of `winograd_transform_in`: for each of the 36 bands `i`
and each staged entry, `V[i*C*P + buffer_offset + entry] = buffer[i*32 + entry]`. -/
def winInFlush (C P : ℕ) (V buf : ℕ → α) (off cnt : ℕ) : ℕ → α :=
  (List.range 36).foldl
    (fun v i =>
      (List.range cnt).foldl
        (fun v e => Function.update v (i * (C * P) + off + e) (buf (i * 32 + e))) v)
    V

/-- The staging loop of `winograd_transform_in`: store the 36 transformed
values of tile `(ch, blockY, blockX)` at
`buffer[buffersize * (i * WINOGRAD_ALPHA + j) + buffer_entries]`. -/
def winInBufWrite (n : ℕ) (s : α) (input : ℕ → α) (ch blockY blockX cnt : ℕ)
    (bv : ℕ → α) : ℕ → α :=
  (List.range 6).foldl
    (fun bv i =>
      (List.range 6).foldl
        (fun bv j =>
          Function.update bv (32 * (i * 6 + j) + cnt)
            (tileBand s (inPad n input ch) (4 * blockY) (4 * blockX) i j)) bv)
    bv

/-- The body of the per-tile loop of `winograd_transform_in`: stage the 36
transformed values of tile `(ch, blockY, blockX)` in the buffer, record the
offset when the buffer was empty, and flush when the buffer is full or at the
final tile of the last channel. -/
def winInTile (n : ℕ) (s : α) (input : ℕ → α) (C ch blockY blockX : ℕ)
    (st : WinInSt α) : WinInSt α :=
  let WT := WTILES n
  let P := WT * WT
  let buf1 := winInBufWrite n s input ch blockY blockX st.buffer_entries st.buffer
  let off1 := if st.buffer_entries = 0 then ch * P + blockY * WT + blockX
              else st.buffer_offset
  let cnt1 := st.buffer_entries + 1
  if 32 ≤ cnt1 ∨ (ch = C - 1 ∧ blockX = WT - 1 ∧ blockY = WT - 1) then
    ⟨winInFlush C P st.V buf1 off1 cnt1, buf1, off1, 0⟩
  else
    ⟨st.V, buf1, off1, cnt1⟩

/-- `CPUPipe::winograd_transform_in`: transform each 4×4-output tile of each
channel into the 36 Winograd bands of `V`, staging up to 32 tiles in a fixed
buffer before each strided scatter. -/
def winograd_transform_in (n : ℕ) (s : α) (input V0 : ℕ → α) (C : ℕ) : ℕ → α :=
  ((List.range C).foldl
    (fun st ch =>
      (List.range (WTILES n)).foldl
        (fun st blockY =>
          (List.range (WTILES n)).foldl
            (fun st blockX => winInTile n s input C ch blockY blockX st) st) st)
    ⟨V0, fun _ => 0, 0, 0⟩).V

/-- One `cblas_sgemm(CblasRowMajor, CblasTrans, CblasNoTrans, m, nn, kd, alpha,
A + offA, lda, B + offB, ldb, beta, C + offC, ldc)` call: the `m × nn` output
region (leading dimension `ldc`) is overwritten with
`alpha * Aᵀ·B + beta * C`; everything outside the region is untouched. -/
def sgemmTN (m nn kd : ℕ) (alpha : α) (A : ℕ → α) (offA lda : ℕ) (B : ℕ → α)
    (offB ldb : ℕ) (beta : α) (C0 : ℕ → α) (offC ldc : ℕ) : ℕ → α :=
  fun idx =>
    if offC ≤ idx ∧ idx < offC + m * ldc ∧ (idx - offC) % ldc < nn then
      alpha * (∑ p ∈ Finset.range kd,
          A (offA + p * lda + (idx - offC) / ldc) * B (offB + p * ldb + (idx - offC) % ldc))
        + beta * C0 idx
    else C0 idx

/-- `CPUPipe::winograd_sgemm`: for each of the 36 bands `b`, multiply the
band-`b` weight slice `U` (stored `C × K`, used transposed) with the band-`b`
input slice `V` (`C × P`) into the band-`b` output slice of `M` (`K × P`),
with `alpha = 1`, `beta = 0`. -/
def winograd_sgemm (n : ℕ) (U V M0 : ℕ → α) (C K : ℕ) : ℕ → α :=
  (List.range 36).foldl
    (fun Mv b =>
      sgemmTN K (WP n) C 1 U (b * (K * C)) K V (b * (C * (WP n))) (WP n) 0 Mv
        (b * (K * (WP n))) (WP n))
    M0

/-- Entry `(i, j)` of `transpose(A) · temp_m · A` for output channel `k` and
tile `b` of `winograd_transform_out`, where
`temp_m[xi][nu] = M[(xi*6 + nu)*K*P + k*P + b]`. -/
def oVal (s : α) (Mv : ℕ → α) (K P k b i j : ℕ) : α :=
  ∑ q ∈ Finset.range 6,
    (∑ q' ∈ Finset.range 6, At s i q' * Mv ((q' * 6 + q) * (K * P) + k * P + b)) * At s j q

/-- The body of the per-tile loop of `winograd_transform_out` (with
`y = 4 * blockY`, `x = 4 * blockX`, `b = blockY * WTILES + blockX`,
`y_ind = k*H*W + y*W + x`): write the in-bounds portion of the 4×4 spatial
block of output channel `k`, tile `(blockX, blockY)`, into `Y` at the tile's
origin. -/
def winOutTile (n : ℕ) (s : α) (Mv : ℕ → α) (K k blockX blockY : ℕ)
    (Y : ℕ → α) : ℕ → α :=
  (List.range 4).foldl
    (fun Yv i =>
      (List.range 4).foldl
        (fun Yv j =>
          if 4 * blockY + i < n ∧ 4 * blockX + j < n then
            Function.update Yv
              (k * (n * n) + 4 * blockY * n + 4 * blockX + (i * n + j))
              (oVal s Mv K (WP n) k (blockY * WTILES n + blockX) i j)
          else Yv) Yv)
    Y

/-- `CPUPipe::winograd_transform_out`: for each output channel and tile,
gather the 36 band values, apply `transpose(A) · temp_m · A`, and store the
clipped 4×4 block. -/
def winograd_transform_out (n : ℕ) (s : α) (Mv Y0 : ℕ → α) (K : ℕ) : ℕ → α :=
  (List.range K).foldl
    (fun Y k =>
      (List.range (WTILES n)).foldl
        (fun Y blockX =>
          (List.range (WTILES n)).foldl
            (fun Y blockY => winOutTile n s Mv K k blockX blockY Y) Y) Y)
    Y0

/-- A `std::vector<float>` whose `.size()` is observed by the code. -/
structure FVec (α : Type*) where
  size : ℕ
  data : ℕ → α

/-- `CPUPipe::winograd_convolve3`: derive the input channel count as
`U.size() / (outputs * WINOGRAD_ALPHA^2)` and run input transform, batched
GEMM, output transform in sequence on the scratch buffers `V` and `M`.
Returns the final `(V, M, output)` contents. -/
def winograd_convolve3 (n : ℕ) (s : α) (outputs : ℕ) (input : ℕ → α)
    (U : FVec α) (V M output : ℕ → α) : (ℕ → α) × (ℕ → α) × (ℕ → α) :=
  let input_channels := U.size / (outputs * 36)
  let V1 := winograd_transform_in n s input V input_channels
  let M1 := winograd_sgemm n U.data V1 M input_channels outputs
  let Y1 := winograd_transform_out n s M1 output outputs
  (V1, M1, Y1)

/-- Modelled from the spec: `im2col<1>` of `Im2Col.h` (missing from the
sources) — "for the 1x1 case used by output heads, patch extraction is an
identity reshape". -/
def im2col1 (input : ℕ → α) : ℕ → α := input

/-- `convolve<1>` (the 1×1 direct convolution of the output heads):
`input_channels = weights.size() / (biases.size() * 1)`; one row-major GEMM
`output[o * NI + b] = Σ_k weights[o * filter_dim + k] * col[k * NI + b]`
(`alpha = 1`, `beta = 0`) over the `outputs × NI` region, followed by the
per-output-channel bias add. -/
def convolve1 (n : ℕ) (outputs : ℕ) (input : ℕ → α) (weights biases : FVec α)
    (output0 : ℕ → α) : ℕ → α :=
  let NI := n * n
  let input_channels := weights.size / (biases.size * 1)
  let filter_dim := 1 * input_channels
  let col := im2col1 input
  fun idx =>
    if idx < outputs * NI then
      (∑ k ∈ Finset.range filter_dim,
          weights.data ((idx / NI) * filter_dim + k) * col (k * NI + idx % NI))
        + biases.data (idx / NI)
    else output0 idx

/-- `avg_pool<spatial_size>`: per-channel mean over one plane,
`output[c] = (Σ_b input[c * ss + b]) / ss` for `c < channels`. -/
def avg_pool (ss channels : ℕ) (input output0 : ℕ → α) : ℕ → α :=
  fun c =>
    if c < channels then (∑ b ∈ Finset.range ss, input (c * ss + b)) / (ss : α)
    else output0 c

/-- `relu`: `data[b] = (data[b] > 0) ? data[b] : 0` for `b < spatial_size`. -/
def relu (ss : ℕ) (d : ℕ → α) : ℕ → α :=
  fun b => if b < ss then (if 0 < d b then d b else 0) else d b

/-- `innerproduct`: dense vector product `output[o] = Σ_k W[o * inputs + k] *
input[k]` followed by the bias add, for `o < outputs`. -/
def innerproduct (inputs outputs : ℕ) (input weights biases output0 : ℕ → α) :
    ℕ → α :=
  fun o =>
    if o < outputs then
      (∑ k ∈ Finset.range inputs, weights (o * inputs + k) * input k) + biases o
    else output0 o

/-- `batchnorm<spatial_size>` (the with-activation variant): for every index
`c * ss + b` with `c < channels`, replace `x` by
`lambda_ReLU(scale_stddev * (x - mean))`, adding `eltwise[c * ss + b]` before
the rectification when a residual is supplied (`eltwise != nullptr`). -/
def batchnorm (ss channels : ℕ) (d : ℕ → α) (means stddevs : ℕ → α)
    (eltwise : Option (ℕ → α)) : ℕ → α :=
  fun idx =>
    if idx < channels * ss then
      match eltwise with
      | none =>
        let v := stddevs (idx / ss) * (d idx - means (idx / ss))
        if 0 < v then v else 0
      | some res =>
        let v := stddevs (idx / ss) * (d idx - means (idx / ss)) + res idx
        if 0 < v then v else 0
    else d idx

/-- `batchnorm_no_relu<spatial_size>`: the without-activation variant,
`x ↦ scale_stddev * (x - mean)`, no rectification, no residual. -/
def batchnorm_no_relu (ss channels : ℕ) (d : ℕ → α) (means stddevs : ℕ → α) :
    ℕ → α :=
  fun idx =>
    if idx < channels * ss then stddevs (idx / ss) * (d idx - means (idx / ss))
    else d idx

/-- The fused squeeze-and-excitation update of `CPUPipe::forward` (the loop
over channels and intersections): with `w = lambda_Sig(se_fc2[c])`,
`conv_out[idx] *= w; conv_out[idx] += se_fc2[C + c] + res[idx];
conv_out[idx] = (conv_out[idx] > 0) ? conv_out[idx] : 0`. -/
def seScale (ss C : ℕ) (sig : α → α) (fc2 res d : ℕ → α) : ℕ → α :=
  fun idx =>
    if idx < C * ss then
      let v1 := d idx * sig (fc2 (idx / ss))
      let v2 := v1 + (fc2 (C + idx / ss) + res idx)
      if 0 < v2 then v2 else 0
    else d idx

/-- The standard logistic function `lambda_Sig` of `CPUPipe::forward`
(`1 / (1 + exp(-val))`). -/
noncomputable def realSigmoid : ℝ → ℝ := fun v => 1 / (1 + Real.exp (-v))

/-- The weight bundle `ForwardPipeWeights` shared with the pipeline
(per-layer lists are modelled as index functions; `n_conv` is
`m_conv_weights.size()`). -/
structure ForwardPipeWeights (α : Type*) where
  n_conv : ℕ
  m_conv_weights : ℕ → FVec α
  m_batchnorm_means : ℕ → ℕ → α
  m_batchnorm_stddevs : ℕ → ℕ → α
  m_se_weights : ℕ → ℕ → α
  m_se_biases : ℕ → ℕ → α
  m_conv_pol_w : FVec α
  m_conv_val_w : FVec α

/-- The `CPUPipe` instance state: input channel count, the shared weight set,
and the output-head weights and (zero-initialized) biases. -/
structure CPUPipeSt (α : Type*) where
  m_input_channels : ℕ
  m_weights : ForwardPipeWeights α
  m_conv_pol_w : FVec α
  m_conv_pol_b : FVec α
  m_conv_val_w : FVec α
  m_conv_val_b : FVec α

/-- `std::vector::resize(count, value)`: keep the first `min(size, count)`
elements, fill the rest with `value`. -/
def vresize (v : FVec α) (count : ℕ) (value : α) : FVec α :=
  ⟨count, fun i => if i < v.size then v.data i else value⟩

/-- `CPUPipe::push_weights(filter_size, channels, outputs, weights)`: store
the shared weight bundle, copy the output-head convolution weights, and derive
the zero-filled bias arrays of length `weight-length / outputs`.  The
`filter_size` and `channels` parameters are unnamed in the source and unused. -/
def push_weights (pipe : CPUPipeSt α) (_filter_size _channels outputs : ℕ)
    (weights : ForwardPipeWeights α) : CPUPipeSt α :=
  { pipe with
    m_weights := weights
    m_conv_pol_w := weights.m_conv_pol_w
    m_conv_pol_b := vresize pipe.m_conv_pol_b (weights.m_conv_pol_w.size / outputs) 0
    m_conv_val_w := weights.m_conv_val_w
    m_conv_val_b := vresize pipe.m_conv_val_b (weights.m_conv_val_w.size / outputs) 0 }

/-- The buffers of `CPUPipe::forward` that live across residual-block
iterations: `conv_out`, `conv_in`, `res` and the scratch `V`, `M`,
`se_pool`, `se_fc1`, `se_fc2`. -/
structure TowerSt (α : Type*) where
  conv_out : ℕ → α
  conv_in : ℕ → α
  res : ℕ → α
  V : ℕ → α
  M : ℕ → α
  se_pool : ℕ → α
  se_fc1 : ℕ → α
  se_fc2 : ℕ → α

/-- One residual-block iteration of `CPUPipe::forward` (loop index `i`,
`output_channels = C`): swap `conv_out`/`conv_in`; convolution + BN with
activation; swap `conv_in`/`res` then `conv_out`/`conv_in`; convolution + BN
without activation; squeeze-and-excitation (average pool, two inner products
with rectification in between, fused channel gate + bias term + residual add +
rectification back into `conv_out`). -/
def towerBlock (n : ℕ) (s : α) (sig : α → α) (w : ForwardPipeWeights α)
    (C i : ℕ) (st : TowerSt α) : TowerSt α :=
  let NI := n * n
  -- std::swap(conv_out, conv_in)
  let conv_in := st.conv_out
  let conv_out := st.conv_in
  let r1 := winograd_convolve3 n s C conv_in (w.m_conv_weights i) st.V st.M conv_out
  let conv_out := batchnorm NI C r1.2.2 (w.m_batchnorm_means i)
    (w.m_batchnorm_stddevs i) none
  -- std::swap(conv_in, res); std::swap(conv_out, conv_in)
  let res := conv_in
  let conv_in := conv_out
  let conv_out := st.res
  let r2 := winograd_convolve3 n s C conv_in (w.m_conv_weights (i + 1)) r1.1 r1.2.1 conv_out
  let conv_out := batchnorm_no_relu NI C r2.2.2 (w.m_batchnorm_means (i + 1))
    (w.m_batchnorm_stddevs (i + 1))
  let se_pool := avg_pool NI C conv_out st.se_pool
  let se_fc1 := relu (C / 2)
    (innerproduct C (C / 2) se_pool (w.m_se_weights (i - 1)) (w.m_se_biases (i - 1)) st.se_fc1)
  let se_fc2 := innerproduct (C / 2) (C * 2) se_fc1 (w.m_se_weights i)
    (w.m_se_biases i) st.se_fc2
  let conv_out := seScale NI C sig se_fc2 res conv_out
  ⟨conv_out, conv_in, res, r2.1, r2.2.1, se_pool, se_fc1, se_fc2⟩

/-- The residual-block body as the spec's §4.8 step 2 describes it, with the
code's residual wiring: convolution → BN-with-activation giving `a`,
convolution → BN-without-activation giving the SE `feature`, then the SE block
with the *block input* `x` as the residual branch `res`. -/
def blockOut (n : ℕ) (s : α) (sig : α → α) (w : ForwardPipeWeights α)
    (C i : ℕ) (x : ℕ → α) : ℕ → α :=
  let NI := n * n
  let zero : ℕ → α := fun _ => 0
  let a := batchnorm NI C (winograd_convolve3 n s C x (w.m_conv_weights i) zero zero zero).2.2
    (w.m_batchnorm_means i) (w.m_batchnorm_stddevs i) none
  let f := batchnorm_no_relu NI C
    (winograd_convolve3 n s C a (w.m_conv_weights (i + 1)) zero zero zero).2.2
    (w.m_batchnorm_means (i + 1)) (w.m_batchnorm_stddevs (i + 1))
  let pool := avg_pool NI C f zero
  let fc1 := relu (C / 2)
    (innerproduct C (C / 2) pool (w.m_se_weights (i - 1)) (w.m_se_biases (i - 1)) zero)
  let fc2 := innerproduct (C / 2) (C * 2) fc1 (w.m_se_weights i) (w.m_se_biases i) zero
  seScale NI C sig fc2 x f

/-- The residual-block body exactly as the claim words it: identical to
`blockOut` except that the SE residual branch `res` is `a`, the output of the
block's *first* convolution + BN (instead of the block input). -/
def blockOutClaimRes (n : ℕ) (s : α) (sig : α → α) (w : ForwardPipeWeights α)
    (C i : ℕ) (x : ℕ → α) : ℕ → α :=
  let NI := n * n
  let zero : ℕ → α := fun _ => 0
  let a := batchnorm NI C (winograd_convolve3 n s C x (w.m_conv_weights i) zero zero zero).2.2
    (w.m_batchnorm_means i) (w.m_batchnorm_stddevs i) none
  let f := batchnorm_no_relu NI C
    (winograd_convolve3 n s C a (w.m_conv_weights (i + 1)) zero zero zero).2.2
    (w.m_batchnorm_means (i + 1)) (w.m_batchnorm_stddevs (i + 1))
  let pool := avg_pool NI C f zero
  let fc1 := relu (C / 2)
    (innerproduct C (C / 2) pool (w.m_se_weights (i - 1)) (w.m_se_biases (i - 1)) zero)
  let fc2 := innerproduct (C / 2) (C * 2) fc1 (w.m_se_weights i) (w.m_se_biases i) zero
  seScale NI C sig fc2 a f

/-- The identity-like GEMM weight of claim C3: for each band, `U` is the
`C × C` identity matrix in the layout read by `winograd_sgemm`
(`U[b*K*C + c*K + k]`, `K = C`), so each band of `V` is mapped through
unchanged. -/
def idU (C : ℕ) : ℕ → α :=
  fun idx => if (idx % (C * C)) / C = idx % C then 1 else 0

/-- The 1-D Winograd transform of the identity (center-delta) 3-tap kernel:
the middle column of the weight-transform matrix `G`. -/
def uCoeff (s : α) (q : ℕ) : α :=
  [0, -(s / 3), s / 3, s / 6, -(s / 6), 0].getD q 0

/-- The Winograd-domain weights of the identity-like 3×3 kernel (center 1)
for `C` channels: band `(i, j)` carries the diagonal `C × C` matrix with
coefficient `uCoeff i * uCoeff j`, in the layout read by `winograd_sgemm`. -/
def deltaU (s : α) (C : ℕ) : ℕ → α :=
  fun idx =>
    if (idx % (C * C)) / C = idx % C then
      uCoeff s (idx / (C * C) / 6) * uCoeff s (idx / (C * C) % 6)
    else 0

/-- Modelled from the spec: the unbuffered scatter of §4.1 — "produce the
Winograd-domain representation V with layout `V[band][channel*tiles +
tile_index]`", each tile's 36 transformed values written directly at the
strided offsets `band*C*P + channel*P + tile_index`, with no staging buffer. -/
def winograd_transform_in_direct (n : ℕ) (s : α) (input V0 : ℕ → α) (C : ℕ) :
    ℕ → α :=
  fun idx =>
    if idx < 36 * (C * WP n) then
      tileBand s (inPad n input (idx % (C * WP n) / WP n))
        (4 * (idx % (C * WP n) % WP n / WTILES n))
        (4 * (idx % (C * WP n) % WP n % WTILES n))
        (idx / (C * WP n) / 6) (idx / (C * WP n) % 6)
    else V0 idx

/-- The per-tile loop body of `winograd_transform_in` re-indexed by the
linear tile counter `t = ch * P + blockY * WTILES + blockX`. -/
def winInLin (n : ℕ) (s : α) (input : ℕ → α) (C t : ℕ) (st : WinInSt α) :
    WinInSt α :=
  winInTile n s input C (t / WP n) (t % WP n / WTILES n) (t % WTILES n) st

/-- The Winograd-domain value of band `band` of the tile with linear index
`t`: channel `t / P`, tile row `(t % P) / WTILES`, tile column `t % WTILES`. -/
def tvIn (n : ℕ) (s : α) (input : ℕ → α) (t band : ℕ) : α :=
  tileBand s (inPad n input (t / WP n)) (4 * (t % WP n / WTILES n))
    (4 * (t % WTILES n)) (band / 6) (band % 6)

/-- The state of `winograd_transform_in` after the first `m` tiles have been
processed (tiles in linear order). -/
def winInState (n : ℕ) (s : α) (input V0 : ℕ → α) (C m : ℕ) : WinInSt α :=
  (List.range m).foldl (fun st t => winInLin n s input C t st) ⟨V0, fun _ => 0, 0, 0⟩

/-- The closed form of one output cell of `winograd_convolve3` at flat index
`idx = k * n² + yy * n + xx`: the `(yy % 4, xx % 4)` entry of the
inverse-transformed GEMM output of tile `(yy / 4, xx / 4)` of channel `k`,
with the GEMM and the input transform expanded.  It depends only on the
input plane and the weights, not on the scratch buffers. -/
def convFormula (n : ℕ) (s : α) (input Ud : ℕ → α) (ic K : ℕ) : ℕ → α :=
  fun idx =>
    ∑ q ∈ Finset.range 6,
      (∑ q' ∈ Finset.range 6, At s (idx % (n * n) / n % 4) q' *
        (∑ c ∈ Finset.range ic,
          Ud ((q' * 6 + q) * (K * ic) + c * K + idx / (n * n))
            * tvIn n s input
              (c * WP n + (idx % (n * n) / n / 4 * WTILES n + idx % (n * n) % n / 4))
              (q' * 6 + q)))
        * At s (idx % (n * n) % n % 4) q

/-- `CPUPipe::forward`: input convolution + BN with activation, the residual
tower (one `towerBlock` per pair of weight-set entries, loop index
`i = 1, 3, 5, …`), then the two 1×1 output-head convolutions.  `OUT_POL` and
`OUT_VAL` stand for `Network::OUTPUTS_POLICY` / `Network::OUTPUTS_VALUE`.
Returns the final `(output_pol, output_val)` contents. -/
def forward (n : ℕ) (s : α) (sig : α → α) (OUT_POL OUT_VAL : ℕ)
    (pipe : CPUPipeSt α) (input output_pol output_val : ℕ → α) :
    (ℕ → α) × (ℕ → α) :=
  let NI := n * n
  let output_channels := pipe.m_input_channels
  let zero : ℕ → α := fun _ => 0
  let r0 := winograd_convolve3 n s output_channels input
    (pipe.m_weights.m_conv_weights 0) zero zero zero
  let conv_out := batchnorm NI output_channels r0.2.2
    (pipe.m_weights.m_batchnorm_means 0) (pipe.m_weights.m_batchnorm_stddevs 0) none
  let st0 : TowerSt α := ⟨conv_out, zero, zero, r0.1, r0.2.1, zero, zero, zero⟩
  let stN := (List.range (pipe.m_weights.n_conv / 2)).foldl
    (fun st t => towerBlock n s sig pipe.m_weights output_channels (2 * t + 1) st) st0
  let pol := convolve1 n OUT_POL stN.conv_out pipe.m_conv_pol_w pipe.m_conv_pol_b output_pol
  let val := convolve1 n OUT_VAL stN.conv_out pipe.m_conv_val_w pipe.m_conv_val_b output_val
  (pol, val)

/-! ### Generic fold lemmas -/

/-- Flattening two nested `List.range` folds into one fold over the product
range, the pair `(i, j)` becoming `(t / b, t % b)`. -/
theorem foldl_range_pair {σ : Type*} (f : ℕ → ℕ → σ → σ) (a b : ℕ) (init : σ) :
    (List.range a).foldl
        (fun st i => (List.range b).foldl (fun st j => f i j st) st) init
      = (List.range (a * b)).foldl (fun st t => f (t / b) (t % b) st) init := by
  induction a generalizing init with
  | zero => simp
  | succ a ih =>
    rw [List.range_succ, List.foldl_append, ih, Nat.succ_mul, List.range_add,
      List.foldl_append, List.foldl_map, List.foldl_cons, List.foldl_nil]
    rcases Nat.eq_zero_or_pos b with hb | hb
    · subst hb; simp
    · apply List.foldl_ext
      intro st j hj
      rw [List.mem_range] at hj
      have hd : (a * b + j) / b = a := by
        rw [mul_comm a b, Nat.mul_add_div hb, Nat.div_eq_of_lt hj, Nat.add_zero]
      have hm : (a * b + j) % b = j := by
        rw [mul_comm a b, Nat.mul_add_mod, Nat.mod_eq_of_lt hj]
      rw [hd, hm]

/-- A fold of region writers leaves every index that no step writes
unchanged. -/
theorem foldl_write_frame {β : Type*} (k : ℕ) (step : ℕ → (ℕ → β) → (ℕ → β))
    (Wset : ℕ → ℕ → Prop)
    (hout : ∀ u < k, ∀ Y idx, ¬ Wset u idx → step u Y idx = Y idx)
    (Y0 : ℕ → β) (idx : ℕ) (h : ∀ u < k, ¬ Wset u idx) :
    (List.range k).foldl (fun Y u => step u Y) Y0 idx = Y0 idx := by
  induction k with
  | zero => simp
  | succ k ih =>
    rw [List.range_succ, List.foldl_append, List.foldl_cons, List.foldl_nil,
      hout k (Nat.lt_succ_self k) _ idx (h k (Nat.lt_succ_self k))]
    exact ih (fun u hu => hout u (Nat.lt_succ_of_lt hu)) fun u hu => h u (Nat.lt_succ_of_lt hu)

/-- A fold of region writers whose written values do not depend on the buffer:
an index written by step `u` and by no later step ends up with step `u`'s
value. -/
theorem foldl_write_last {β : Type*} (k : ℕ) (step : ℕ → (ℕ → β) → (ℕ → β))
    (Wset : ℕ → ℕ → Prop) (val : ℕ → ℕ → β)
    (hin : ∀ u < k, ∀ Y idx, Wset u idx → step u Y idx = val u idx)
    (hout : ∀ u < k, ∀ Y idx, ¬ Wset u idx → step u Y idx = Y idx)
    (Y0 : ℕ → β) (u idx : ℕ) (hu : u < k) (hw : Wset u idx)
    (hlater : ∀ u', u < u' → u' < k → ¬ Wset u' idx) :
    (List.range k).foldl (fun Y u => step u Y) Y0 idx = val u idx := by
  induction k with
  | zero => exact absurd hu (Nat.not_lt_zero u)
  | succ k ih =>
    rw [List.range_succ, List.foldl_append, List.foldl_cons, List.foldl_nil]
    rcases Nat.lt_succ_iff_lt_or_eq.mp hu with hu' | rfl
    · rw [hout k (Nat.lt_succ_self k) _ idx (hlater k hu' (Nat.lt_succ_self k))]
      exact ih (fun v hv => hin v (Nat.lt_succ_of_lt hv))
        (fun v hv => hout v (Nat.lt_succ_of_lt hv)) hu'
        fun u' h1 h2 => hlater u' h1 (Nat.lt_succ_of_lt h2)
    · exact hin u (Nat.lt_succ_self u) _ idx hw

/-- A fold of single-cell updates, read at the key of step `u`, yields step
`u`'s value provided no later step reuses that key. -/
theorem foldl_update_eval {β : Type*} (k : ℕ) (key : ℕ → ℕ) (v : ℕ → β)
    (f0 : ℕ → β) (u : ℕ) (hu : u < k)
    (hinj : ∀ u', u < u' → u' < k → key u' ≠ key u) :
    (List.range k).foldl (fun f i => Function.update f (key i) (v i)) f0 (key u)
      = v u := by
  have := foldl_write_last k (fun i f => Function.update f (key i) (v i))
    (fun i idx => idx = key i) (fun i _ => v i)
    (fun i _ Y idx hidx => by
      have h : idx = key i := hidx
      subst h
      exact Function.update_same _ _ _)
    (fun i _ Y idx hidx => Function.update_noteq hidx _ _)
    f0 u (key u) hu rfl (fun u' h1 h2 h3 => hinj u' h1 h2 h3.symm)
  exact this

/-- A fold of single-cell updates leaves every other index unchanged. -/
theorem foldl_update_frame {β : Type*} (k : ℕ) (key : ℕ → ℕ) (v : ℕ → β)
    (f0 : ℕ → β) (idx : ℕ) (h : ∀ u < k, key u ≠ idx) :
    (List.range k).foldl (fun f i => Function.update f (key i) (v i)) f0 idx
      = f0 idx :=
  foldl_write_frame k (fun i f => Function.update f (key i) (v i))
    (fun i j => j = key i)
    (fun i _ Y j hj => Function.update_noteq hj _ _) f0 idx
    fun u hu hj => h u hu hj.symm

/-! ### The Winograd input transform: buffered scatter characterization -/

/-- Uniqueness of the division decomposition `a * D + r` with `r < D`. -/
theorem mulAdd_left_inj {D a r b r' : ℕ} (hr : r < D) (hr' : r' < D)
    (h : a * D + r = b * D + r') : a = b ∧ r = r' := by
  have hD : 0 < D := Nat.pos_of_ne_zero (by rintro rfl; exact absurd hr (Nat.not_lt_zero r))
  have ha : a = b := by
    have h1 := congrArg (· / D) h
    simpa [mul_comm, Nat.mul_add_div hD, Nat.div_eq_of_lt hr, Nat.div_eq_of_lt hr']
      using h1
  subst ha
  exact ⟨rfl, by omega⟩

theorem winInBufWrite_eval (n : ℕ) (s : α) (input : ℕ → α)
    (ch blockY blockX cnt : ℕ) (bv : ℕ → α) (hcnt : cnt < 32) (band : ℕ)
    (hband : band < 36) :
    winInBufWrite n s input ch blockY blockX cnt bv (32 * band + cnt)
      = tileBand s (inPad n input ch) (4 * blockY) (4 * blockX) (band / 6) (band % 6) := by
  unfold winInBufWrite
  rw [foldl_range_pair
    (fun i j bv => Function.update bv (32 * (i * 6 + j) + cnt)
      (tileBand s (inPad n input ch) (4 * blockY) (4 * blockX) i j)) 6 6 bv]
  have h66 : (6 : ℕ) * 6 = 36 := by norm_num
  rw [h66]
  have hkey : ∀ q : ℕ, 32 * (q / 6 * 6 + q % 6) + cnt = 32 * q + cnt := by
    intro q
    rw [Nat.div_add_mod']
  have hb' : 32 * band + cnt = 32 * (band / 6 * 6 + band % 6) + cnt := (hkey band).symm
  rw [hb']
  exact foldl_update_eval 36 (fun q => 32 * (q / 6 * 6 + q % 6) + cnt)
    (fun q => tileBand s (inPad n input ch) (4 * blockY) (4 * blockX) (q / 6) (q % 6))
    bv band hband
    (fun u' h1 h2 h3 => by
      have h3' : 32 * (u' / 6 * 6 + u' % 6) + cnt
          = 32 * (band / 6 * 6 + band % 6) + cnt := h3
      rw [hkey u', hkey band] at h3'
      omega)

theorem winInBufWrite_frame (n : ℕ) (s : α) (input : ℕ → α)
    (ch blockY blockX cnt : ℕ) (bv : ℕ → α) (idx : ℕ)
    (h : ∀ q < 36, idx ≠ 32 * q + cnt) :
    winInBufWrite n s input ch blockY blockX cnt bv idx = bv idx := by
  unfold winInBufWrite
  rw [foldl_range_pair
    (fun i j bv => Function.update bv (32 * (i * 6 + j) + cnt)
      (tileBand s (inPad n input ch) (4 * blockY) (4 * blockX) i j)) 6 6 bv]
  have h66 : (6 : ℕ) * 6 = 36 := by norm_num
  rw [h66]
  refine foldl_update_frame 36 (fun q => 32 * (q / 6 * 6 + q % 6) + cnt) _ bv idx
    fun u hu hk => ?_
  have hk' : 32 * (u / 6 * 6 + u % 6) + cnt = idx := hk
  rw [Nat.div_add_mod'] at hk'
  exact h u hu hk'.symm

theorem winInFlush_eval (C P : ℕ) (V buf : ℕ → α) (off cnt : ℕ)
    (hoffcnt : off + cnt ≤ C * P) (band e : ℕ) (hband : band < 36)
    (he : e < cnt) :
    winInFlush C P V buf off cnt (band * (C * P) + (off + e)) = buf (band * 32 + e) := by
  unfold winInFlush
  rw [foldl_range_pair
    (fun i e v => Function.update v (i * (C * P) + off + e) (buf (i * 32 + e))) 36 cnt V]
  have hdecode : ∀ q, q < 36 * cnt → q / cnt < 36 ∧ q % cnt < cnt := by
    intro q hq
    have hcnt : 0 < cnt := by
      rcases Nat.eq_zero_or_pos cnt with h | h
      · subst h; omega
      · exact h
    exact ⟨Nat.div_lt_of_lt_mul (by omega), Nat.mod_lt _ hcnt⟩
  have hdm : (band * cnt + e) / cnt = band ∧ (band * cnt + e) % cnt = e := by
    constructor
    · rw [mul_comm band cnt, Nat.mul_add_div (by omega), Nat.div_eq_of_lt he,
        Nat.add_zero]
    · rw [mul_comm band cnt, Nat.mul_add_mod, Nat.mod_eq_of_lt he]
  have hev := foldl_update_eval (36 * cnt) (fun q => q / cnt * (C * P) + off + q % cnt)
    (fun q => buf (q / cnt * 32 + q % cnt)) V (band * cnt + e)
    (by
      have h1 : band * cnt + e < band * cnt + cnt := by omega
      calc band * cnt + e < band * cnt + cnt := h1
        _ = (band + 1) * cnt := by ring
        _ ≤ 36 * cnt := Nat.mul_le_mul_right cnt (by omega))
    (fun u' h1 h2 h3 => by
      have hu' := hdecode u' h2
      have h3' : u' / cnt * (C * P) + off + u' % cnt
          = (band * cnt + e) / cnt * (C * P) + off + (band * cnt + e) % cnt := h3
      rw [hdm.1, hdm.2] at h3'
      have hkey : u' / cnt * (C * P) + (off + u' % cnt) = band * (C * P) + (off + e) := by
        omega
      have hres1 : off + u' % cnt < C * P := by omega
      have hres2 : off + e < C * P := by omega
      have hinj := mulAdd_left_inj hres1 hres2 hkey
      have hd := hinj.1
      have hm : u' % cnt = e := by omega
      have hsplit := Nat.div_add_mod' u' cnt
      rw [hd, hm] at hsplit
      omega)
  simp only [] at hev
  rw [hdm.1, hdm.2] at hev
  rw [← Nat.add_assoc]
  exact hev

theorem winInFlush_frame (C P : ℕ) (V buf : ℕ → α) (off cnt idx : ℕ)
    (h : ∀ band < 36, ∀ e < cnt, idx ≠ band * (C * P) + off + e) :
    winInFlush C P V buf off cnt idx = V idx := by
  unfold winInFlush
  rw [foldl_range_pair
    (fun i e v => Function.update v (i * (C * P) + off + e) (buf (i * 32 + e))) 36 cnt V]
  refine foldl_update_frame (36 * cnt) _ _ V idx fun u hu => ?_
  have hcnt : 0 < cnt := by
    rcases Nat.eq_zero_or_pos cnt with h' | h'
    · subst h'; omega
    · exact h'
  exact fun hk => h (u / cnt) (Nat.div_lt_of_lt_mul (by omega)) (u % cnt)
    (Nat.mod_lt _ hcnt) hk.symm

/-- The three nested tile loops of `winograd_transform_in` are the linear fold
over all `C * P` tiles. -/
theorem winograd_transform_in_eq_lin (n : ℕ) (s : α) (input V0 : ℕ → α) (C : ℕ) :
    winograd_transform_in n s input V0 C = (winInState n s input V0 C (C * WP n)).V := by
  unfold winograd_transform_in winInState
  refine congrArg WinInSt.V ?_
  have h1 : ∀ (st : WinInSt α), ∀ ch ∈ List.range C,
      (List.range (WTILES n)).foldl
          (fun st blockY => (List.range (WTILES n)).foldl
            (fun st blockX => winInTile n s input C ch blockY blockX st) st) st
        = (List.range (WP n)).foldl
          (fun st q => winInTile n s input C ch (q / WTILES n) (q % WTILES n) st) st := by
    intro st ch _
    exact foldl_range_pair
      (fun blockY blockX st => winInTile n s input C ch blockY blockX st) _ _ st
  have h2 : ∀ (st : WinInSt α), ∀ t ∈ List.range (C * WP n),
      winInTile n s input C (t / WP n) (t % WP n / WTILES n) (t % WP n % WTILES n) st
        = winInLin n s input C t st := by
    intro st t _
    unfold winInLin
    rw [Nat.mod_mod_of_dvd t
      (show WTILES n ∣ WP n from dvd_mul_left (WTILES n) (WTILES n))]
  refine Eq.trans (List.foldl_ext _ _ _ h1) ?_
  refine Eq.trans
    (foldl_range_pair
      (fun ch q st => winInTile n s input C ch (q / WTILES n) (q % WTILES n) st)
      C (WP n) _) ?_
  exact List.foldl_ext _ _ _ h2

theorem winInState_succ (n : ℕ) (s : α) (input V0 : ℕ → α) (C m : ℕ) :
    winInState n s input V0 C (m + 1)
      = winInLin n s input C m (winInState n s input V0 C m) := by
  unfold winInState
  rw [List.range_succ, List.foldl_append, List.foldl_cons, List.foldl_nil]

/-- The linear tile index decomposes as `ch * P + blockY * WTILES + blockX`. -/
theorem tileIndex_decomp (n t : ℕ) :
    t / WP n * WP n + (t % WP n / WTILES n * WTILES n + t % WTILES n) = t := by
  rw [← Nat.mod_mod_of_dvd t
    (show WTILES n ∣ WP n from dvd_mul_left (WTILES n) (WTILES n))]
  rw [Nat.div_add_mod' (t % WP n) (WTILES n)]
  exact Nat.div_add_mod' t (WP n)

/-- For `t < C * P`, the loop indices of tile `t` are those of the final tile
of the last channel exactly when `t` is the last tile overall. -/
theorem lastTile_iff (n C t : ℕ) (hn : 0 < n) (hC : 0 < C) (ht : t < C * WP n) :
    (t / WP n = C - 1 ∧ t % WTILES n = WTILES n - 1 ∧ t % WP n / WTILES n = WTILES n - 1)
      ↔ t = C * WP n - 1 := by
  have hWT : 0 < WTILES n := by
    unfold WTILES
    omega
  obtain ⟨w, hw⟩ : ∃ w, WTILES n = w + 1 := ⟨WTILES n - 1, by omega⟩
  obtain ⟨c, hc⟩ : ∃ c, C = c + 1 := ⟨C - 1, by omega⟩
  have hP : WP n = (w + 1) * (w + 1) := by
    unfold WP
    rw [hw]
  have hrem : w * (w + 1) + w < (w + 1) * (w + 1) := by nlinarith
  have hdiv : (c * ((w + 1) * (w + 1)) + (w * (w + 1) + w)) / ((w + 1) * (w + 1)) = c := by
    rw [mul_comm c ((w + 1) * (w + 1)), Nat.mul_add_div (by positivity),
      Nat.div_eq_of_lt hrem, Nat.add_zero]
  have hmodP : (c * ((w + 1) * (w + 1)) + (w * (w + 1) + w)) % ((w + 1) * (w + 1))
      = w * (w + 1) + w := by
    rw [mul_comm c ((w + 1) * (w + 1)), Nat.mul_add_mod, Nat.mod_eq_of_lt hrem]
  have hmodWT : (c * ((w + 1) * (w + 1)) + (w * (w + 1) + w)) % (w + 1) = w := by
    have h1 : c * ((w + 1) * (w + 1)) + (w * (w + 1) + w)
        = (w + 1) * (c * (w + 1) + w) + w := by ring
    rw [h1, Nat.mul_add_mod, Nat.mod_eq_of_lt (by omega)]
  have hdivInner : (w * (w + 1) + w) / (w + 1) = w := by
    have h1 : w * (w + 1) + w = (w + 1) * w + w := by ring
    rw [h1, Nat.mul_add_div (by omega), Nat.div_eq_of_lt (by omega), Nat.add_zero]
  have hlast : C * WP n - 1 = c * ((w + 1) * (w + 1)) + (w * (w + 1) + w) := by
    rw [hP, hc]
    have h1 : (c + 1) * ((w + 1) * (w + 1))
        = c * ((w + 1) * (w + 1)) + (w * (w + 1) + w) + 1 := by ring
    omega
  constructor
  · rintro ⟨h1, h2, h3⟩
    have hdec := tileIndex_decomp n t
    rw [h1, h2, h3] at hdec
    rw [hc, hw, hP] at hdec
    simp only [Nat.add_sub_cancel] at hdec
    rw [hlast]
    exact hdec.symm
  · rintro rfl
    rw [hlast, hP, hw, hc]
    refine ⟨?_, ?_, ?_⟩
    · rw [hdiv]
      omega
    · rw [hmodWT]
      omega
    · rw [hmodP, hdivInner]
      omega

/-- `winInTile` written out with its lets zeta-reduced. -/
theorem winInTile_eq (n : ℕ) (s : α) (input : ℕ → α) (C ch blockY blockX : ℕ)
    (st : WinInSt α) :
    winInTile n s input C ch blockY blockX st =
      if 32 ≤ st.buffer_entries + 1
          ∨ (ch = C - 1 ∧ blockX = WTILES n - 1 ∧ blockY = WTILES n - 1) then
        ⟨winInFlush C (WP n) st.V
            (winInBufWrite n s input ch blockY blockX st.buffer_entries st.buffer)
            (if st.buffer_entries = 0 then ch * WP n + blockY * WTILES n + blockX
             else st.buffer_offset)
            (st.buffer_entries + 1),
          winInBufWrite n s input ch blockY blockX st.buffer_entries st.buffer,
          (if st.buffer_entries = 0 then ch * WP n + blockY * WTILES n + blockX
           else st.buffer_offset), 0⟩
      else
        ⟨st.V, winInBufWrite n s input ch blockY blockX st.buffer_entries st.buffer,
          (if st.buffer_entries = 0 then ch * WP n + blockY * WTILES n + blockX
           else st.buffer_offset), st.buffer_entries + 1⟩ := rfl

/-- The offset chosen by tile `m`'s iteration is the start of the current
32-tile group. -/
theorem winInOff_eq (n C m : ℕ) (st : WinInSt α)
    (ih1 : st.buffer_entries = m % 32)
    (ih2 : st.buffer_entries ≠ 0 → st.buffer_offset = m - m % 32) :
    (if st.buffer_entries = 0 then
        m / WP n * WP n + m % WP n / WTILES n * WTILES n + m % WTILES n
     else st.buffer_offset) = m - m % 32 := by
  by_cases h0 : st.buffer_entries = 0
  · rw [if_pos h0]
    rw [ih1] at h0
    have hd := tileIndex_decomp n m
    omega
  · rw [if_neg h0]
    exact ih2 h0

/-- After a flush at tile `m` of a state satisfying the scatter invariant,
`V` holds the transformed values of all tiles up to `m`. -/
theorem flush_state_V (n : ℕ) (s : α) (input : ℕ → α) (C m : ℕ)
    (st : WinInSt α) (hmN : m < C * WP n)
    (ih1 : st.buffer_entries = m % 32)
    (ih3 : ∀ e < m % 32, ∀ band < 36,
      st.buffer (32 * band + e) = tvIn n s input (m - m % 32 + e) band)
    (ih4 : ∀ t < m - m % 32, ∀ band < 36,
      st.V (band * (C * WP n) + t) = tvIn n s input t band)
    (off1 : ℕ) (hoff1 : off1 = m - m % 32) (t band : ℕ) (ht : t < m + 1)
    (hband : band < 36) :
    winInFlush C (WP n) st.V
      (winInBufWrite n s input (m / WP n) (m % WP n / WTILES n) (m % WTILES n)
        st.buffer_entries st.buffer)
      off1 (st.buffer_entries + 1) (band * (C * WP n) + t)
      = tvIn n s input t band := by
  have h32 : m % 32 < 32 := Nat.mod_lt _ (by omega)
  by_cases hto : off1 ≤ t
  · obtain ⟨e, rfl⟩ : ∃ e, t = off1 + e := ⟨t - off1, by omega⟩
    have he : e < st.buffer_entries + 1 := by rw [ih1]; omega
    have heval := winInFlush_eval C (WP n) st.V
      (winInBufWrite n s input (m / WP n) (m % WP n / WTILES n) (m % WTILES n)
        st.buffer_entries st.buffer)
      off1 (st.buffer_entries + 1) (by rw [ih1]; omega) band e hband he
    rw [heval]
    have hb32 : band * 32 + e = 32 * band + e := by ring
    rw [hb32]
    by_cases hlaste : e = st.buffer_entries
    · rw [hlaste]
      rw [winInBufWrite_eval n s input (m / WP n) (m % WP n / WTILES n) (m % WTILES n)
        st.buffer_entries st.buffer (by omega) band hband]
      have hm : off1 + st.buffer_entries = m := by omega
      rw [hm]
      rfl
    · have he' : e < m % 32 := by omega
      rw [winInBufWrite_frame n s input (m / WP n) (m % WP n / WTILES n) (m % WTILES n)
        st.buffer_entries st.buffer (32 * band + e) (fun q hq hcontra => by omega)]
      rw [ih3 e he' band hband]
      rw [hoff1]
  · rw [winInFlush_frame C (WP n) st.V _ off1 (st.buffer_entries + 1)
      (band * (C * WP n) + t) ?_]
    · exact ih4 t (by omega) band hband
    · intro band' hband' e' he' heq
      have heq' : band * (C * WP n) + t = band' * (C * WP n) + (off1 + e') := by omega
      have hr : t < C * WP n := by omega
      have hr' : off1 + e' < C * WP n := by omega
      have := mulAdd_left_inj hr hr' heq'
      omega

/-- The loop invariant of the buffered scatter of `winograd_transform_in`:
after `m < C * P` tiles, `buffer_entries` counts the tiles staged since the
last flush, `buffer_offset` marks the start of the current 32-tile group, the
staging buffer holds the transformed values of the staged tiles, and `V`
holds the values of every flushed tile. -/
theorem winIn_invariant (n : ℕ) (s : α) (input V0 : ℕ → α) (C : ℕ)
    (hn : 0 < n) (hC : 0 < C) :
    ∀ m, m < C * WP n →
      (winInState n s input V0 C m).buffer_entries = m % 32 ∧
      ((winInState n s input V0 C m).buffer_entries ≠ 0 →
        (winInState n s input V0 C m).buffer_offset = m - m % 32) ∧
      (∀ e < m % 32, ∀ band < 36,
        (winInState n s input V0 C m).buffer (32 * band + e)
          = tvIn n s input (m - m % 32 + e) band) ∧
      (∀ t < m - m % 32, ∀ band < 36,
        (winInState n s input V0 C m).V (band * (C * WP n) + t)
          = tvIn n s input t band) := by
  intro m
  induction m with
  | zero =>
    intro _
    refine ⟨rfl, fun h => absurd rfl h, fun e he => absurd he (by omega), fun t ht => absurd ht (by omega)⟩
  | succ m ih =>
    intro hm
    obtain ⟨ih1, ih2, ih3, ih4⟩ := ih (by omega)
    have h32 : m % 32 < 32 := Nat.mod_lt _ (by omega)
    have hnotlast : ¬(m / WP n = C - 1 ∧ m % WTILES n = WTILES n - 1
        ∧ m % WP n / WTILES n = WTILES n - 1) := by
      rw [lastTile_iff n C m hn hC (by omega)]
      omega
    rw [winInState_succ]
    set st := winInState n s input V0 C m with hst
    unfold winInLin
    rw [winInTile_eq]
    by_cases hfl : m % 32 = 31
    · -- the buffer is full: flush
      rw [if_pos (Or.inl (by rw [ih1]; omega))]
      refine ⟨?_, ?_, ?_, ?_⟩
      · show (0 : ℕ) = (m + 1) % 32
        omega
      · intro h
        exact absurd rfl h
      · intro e he
        exact absurd he (by omega)
      · intro t ht band hband
        show winInFlush C (WP n) st.V
            (winInBufWrite n s input (m / WP n) (m % WP n / WTILES n) (m % WTILES n)
              st.buffer_entries st.buffer)
            (if st.buffer_entries = 0 then
              m / WP n * WP n + m % WP n / WTILES n * WTILES n + m % WTILES n
             else st.buffer_offset)
            (st.buffer_entries + 1) (band * (C * WP n) + t) = tvIn n s input t band
        rw [winInOff_eq n C m st ih1 ih2]
        exact flush_state_V n s input C m st (by omega) ih1 ih3 ih4
          (m - m % 32) rfl t band (by omega) hband
    · -- no flush: the tile is only staged
      rw [if_neg (by
        rintro (h | h)
        · rw [ih1] at h
          omega
        · exact hnotlast h)]
      refine ⟨?_, ?_, ?_, ?_⟩
      · show st.buffer_entries + 1 = (m + 1) % 32
        rw [ih1]
        omega
      · intro _
        show (if st.buffer_entries = 0 then
            m / WP n * WP n + m % WP n / WTILES n * WTILES n + m % WTILES n
           else st.buffer_offset) = (m + 1) - (m + 1) % 32
        rw [winInOff_eq n C m st ih1 ih2]
        omega
      · intro e he band hband
        show winInBufWrite n s input (m / WP n) (m % WP n / WTILES n) (m % WTILES n)
            st.buffer_entries st.buffer (32 * band + e)
          = tvIn n s input ((m + 1) - (m + 1) % 32 + e) band
        by_cases hlaste : e = m % 32
        · rw [hlaste, ← ih1]
          rw [winInBufWrite_eval n s input (m / WP n) (m % WP n / WTILES n)
            (m % WTILES n) st.buffer_entries st.buffer (by rw [ih1]; omega) band hband]
          rw [show (m + 1) - (m + 1) % 32 + st.buffer_entries = m by rw [ih1]; omega]
          rfl
        · have he' : e < m % 32 := by omega
          rw [winInBufWrite_frame n s input (m / WP n) (m % WP n / WTILES n)
            (m % WTILES n) st.buffer_entries st.buffer (32 * band + e)
            (fun q hq hcontra => by omega)]
          rw [ih3 e he' band hband]
          rw [show (m + 1) - (m + 1) % 32 + e = m - m % 32 + e by omega]
      · intro t ht band hband
        show st.V (band * (C * WP n) + t) = tvIn n s input t band
        exact ih4 t (by omega) band hband

/-- After all `C * P` tiles, `V` holds every transformed tile value at its
strided offset. -/
theorem winIn_final (n : ℕ) (s : α) (input V0 : ℕ → α) (C : ℕ)
    (hn : 0 < n) (hC : 0 < C) :
    ∀ t < C * WP n, ∀ band < 36,
      (winInState n s input V0 C (C * WP n)).V (band * (C * WP n) + t)
        = tvIn n s input t band := by
  intro t ht band hband
  have hWT : 0 < WTILES n := by
    unfold WTILES
    omega
  have hN : 0 < C * WP n := by
    have : 0 < WP n := Nat.mul_pos hWT hWT
    positivity
  obtain ⟨m, hm⟩ : ∃ m, C * WP n = m + 1 := ⟨C * WP n - 1, by omega⟩
  obtain ⟨ih1, ih2, ih3, ih4⟩ :=
    winIn_invariant n s input V0 C hn hC m (by omega)
  have hstep : winInState n s input V0 C (C * WP n)
      = winInLin n s input C m (winInState n s input V0 C m) := by
    conv_lhs => rw [hm]
    exact winInState_succ n s input V0 C m
  rw [hstep]
  set st := winInState n s input V0 C m with hst
  unfold winInLin
  rw [winInTile_eq]
  have hlast : m / WP n = C - 1 ∧ m % WTILES n = WTILES n - 1
      ∧ m % WP n / WTILES n = WTILES n - 1 :=
    (lastTile_iff n C m hn hC (by omega)).mpr (by omega)
  rw [if_pos (Or.inr hlast)]
  show winInFlush C (WP n) st.V
      (winInBufWrite n s input (m / WP n) (m % WP n / WTILES n) (m % WTILES n)
        st.buffer_entries st.buffer)
      (if st.buffer_entries = 0 then
        m / WP n * WP n + m % WP n / WTILES n * WTILES n + m % WTILES n
       else st.buffer_offset)
      (st.buffer_entries + 1) (band * (C * WP n) + t) = tvIn n s input t band
  rw [winInOff_eq n C m st ih1 ih2]
  exact flush_state_V n s input C m st (by omega) ih1 ih3 ih4
    (m - m % 32) rfl t band (by omega) hband

/-- Characterization of `winograd_transform_in`: the buffered scatter puts the
transformed value of band `band` of tile `t` at `V[band * C * P + t]`. -/
theorem winIn_char (n : ℕ) (s : α) (input V0 : ℕ → α) (C : ℕ)
    (hn : 0 < n) (hC : 0 < C) (band t : ℕ) (hband : band < 36)
    (ht : t < C * WP n) :
    winograd_transform_in n s input V0 C (band * (C * WP n) + t)
      = tvIn n s input t band := by
  rw [winograd_transform_in_eq_lin]
  exact winIn_final n s input V0 C hn hC t ht band hband

/-! ### The batched GEMM: per-band characterization -/

/-- Characterization of `winograd_sgemm`: the band-`b` output slice is the
plain product of the transposed band-`b` weight slice with the band-`b` input
slice — `alpha = 1`, `beta = 0`, so the result does not depend on `M0`. -/
theorem winograd_sgemm_char (n : ℕ) (U V M0 : ℕ → α) (C K : ℕ)
    (b k p : ℕ) (hb : b < 36) (hk : k < K) (hp : p < WP n) :
    winograd_sgemm n U V M0 C K (b * (K * WP n) + (k * WP n + p))
      = ∑ c ∈ Finset.range C,
          U (b * (K * C) + c * K + k) * V (b * (C * WP n) + c * WP n + p) := by
  have hWP : 0 < WP n := by omega
  have hkp : k * WP n + p < K * WP n := by
    calc k * WP n + p < k * WP n + WP n := by omega
      _ = (k + 1) * WP n := by ring
      _ ≤ K * WP n := Nat.mul_le_mul_right (WP n) (by omega)
  have hdm : (k * WP n + p) / WP n = k ∧ (k * WP n + p) % WP n = p := by
    constructor
    · rw [mul_comm k (WP n), Nat.mul_add_div hWP, Nat.div_eq_of_lt hp, Nat.add_zero]
    · rw [mul_comm k (WP n), Nat.mul_add_mod, Nat.mod_eq_of_lt hp]
  unfold winograd_sgemm
  have := foldl_write_last 36
    (fun u Mv => sgemmTN K (WP n) C 1 U (u * (K * C)) K V (u * (C * WP n)) (WP n) 0 Mv
      (u * (K * WP n)) (WP n))
    (fun u idx => u * (K * WP n) ≤ idx ∧ idx < u * (K * WP n) + K * WP n)
    (fun u idx => ∑ c ∈ Finset.range C,
      U (u * (K * C) + c * K + (idx - u * (K * WP n)) / WP n)
        * V (u * (C * WP n) + c * WP n + (idx - u * (K * WP n)) % WP n))
    (fun u _ Y idx hidx => by
      have h1 : u * (K * WP n) ≤ idx := hidx.1
      have h2 : idx < u * (K * WP n) + K * WP n := hidx.2
      show sgemmTN K (WP n) C 1 U (u * (K * C)) K V (u * (C * WP n)) (WP n) 0 Y
        (u * (K * WP n)) (WP n) idx = _
      unfold sgemmTN
      rw [if_pos ⟨h1, h2, Nat.mod_lt _ hWP⟩]
      rw [one_mul, zero_mul, add_zero])
    (fun u _ Y idx hidx => by
      show sgemmTN K (WP n) C 1 U (u * (K * C)) K V (u * (C * WP n)) (WP n) 0 Y
        (u * (K * WP n)) (WP n) idx = Y idx
      unfold sgemmTN
      rw [if_neg (fun hc => hidx ⟨hc.1, hc.2.1⟩)])
    M0 b (b * (K * WP n) + (k * WP n + p)) hb ⟨by omega, by omega⟩
    (fun u' hgt hu' hw => by
      have hmono : (b + 1) * (K * WP n) ≤ u' * (K * WP n) :=
        Nat.mul_le_mul_right (K * WP n) (by omega)
      have hsucc : (b + 1) * (K * WP n) = b * (K * WP n) + K * WP n := by ring
      omega)
  simp only [] at this
  rw [Nat.add_sub_cancel_left, hdm.1, hdm.2] at this
  exact this

/-! ### The Winograd output transform: clipped scatter characterization -/

theorem winOutTile_in (n : ℕ) (s : α) (Mv : ℕ → α) (K k blockX blockY : ℕ)
    (Y : ℕ → α) (i j : ℕ) (hi : i < 4) (hj : j < 4)
    (hyi : 4 * blockY + i < n) (hxj : 4 * blockX + j < n) :
    winOutTile n s Mv K k blockX blockY Y
        (k * (n * n) + 4 * blockY * n + 4 * blockX + (i * n + j))
      = oVal s Mv K (WP n) k (blockY * WTILES n + blockX) i j := by
  unfold winOutTile
  rw [foldl_range_pair
    (fun i j Yv =>
      if 4 * blockY + i < n ∧ 4 * blockX + j < n then
        Function.update Yv (k * (n * n) + 4 * blockY * n + 4 * blockX + (i * n + j))
          (oVal s Mv K (WP n) k (blockY * WTILES n + blockX) i j)
      else Yv) 4 4 Y]
  have h44 : (4 : ℕ) * 4 = 16 := by norm_num
  rw [h44]
  have hdm : (i * 4 + j) / 4 = i ∧ (i * 4 + j) % 4 = j := by
    constructor
    · rw [mul_comm i 4, Nat.mul_add_div (by omega), Nat.div_eq_of_lt hj, Nat.add_zero]
    · rw [mul_comm i 4, Nat.mul_add_mod, Nat.mod_eq_of_lt hj]
  have := foldl_write_last 16
    (fun q Yv =>
      if 4 * blockY + q / 4 < n ∧ 4 * blockX + q % 4 < n then
        Function.update Yv
          (k * (n * n) + 4 * blockY * n + 4 * blockX + (q / 4 * n + q % 4))
          (oVal s Mv K (WP n) k (blockY * WTILES n + blockX) (q / 4) (q % 4))
      else Yv)
    (fun q idx => (4 * blockY + q / 4 < n ∧ 4 * blockX + q % 4 < n)
      ∧ idx = k * (n * n) + 4 * blockY * n + 4 * blockX + (q / 4 * n + q % 4))
    (fun q _ => oVal s Mv K (WP n) k (blockY * WTILES n + blockX) (q / 4) (q % 4))
    (fun q _ Yv idx hidx => by
      have hc := hidx.1
      have hk' := hidx.2
      show (if 4 * blockY + q / 4 < n ∧ 4 * blockX + q % 4 < n then
          Function.update Yv
            (k * (n * n) + 4 * blockY * n + 4 * blockX + (q / 4 * n + q % 4))
            (oVal s Mv K (WP n) k (blockY * WTILES n + blockX) (q / 4) (q % 4))
        else Yv) idx = _
      rw [if_pos hc, hk', Function.update_same])
    (fun q _ Yv idx hidx => by
      show (if 4 * blockY + q / 4 < n ∧ 4 * blockX + q % 4 < n then
          Function.update Yv
            (k * (n * n) + 4 * blockY * n + 4 * blockX + (q / 4 * n + q % 4))
            (oVal s Mv K (WP n) k (blockY * WTILES n + blockX) (q / 4) (q % 4))
        else Yv) idx = Yv idx
      by_cases hc : 4 * blockY + q / 4 < n ∧ 4 * blockX + q % 4 < n
      · rw [if_pos hc]
        exact Function.update_noteq (fun he => hidx ⟨hc, he⟩) _ _
      · rw [if_neg hc])
    Y (i * 4 + j)
    (k * (n * n) + 4 * blockY * n + 4 * blockX + ((i * 4 + j) / 4 * n + (i * 4 + j) % 4))
    (by omega)
    (by
      refine ⟨?_, rfl⟩
      show 4 * blockY + (i * 4 + j) / 4 < n ∧ 4 * blockX + (i * 4 + j) % 4 < n
      rw [hdm.1, hdm.2]
      exact ⟨hyi, hxj⟩)
    (fun q' hgt hq' hw => by
      have hc : 4 * blockY + q' / 4 < n ∧ 4 * blockX + q' % 4 < n := hw.1
      have hkey : k * (n * n) + 4 * blockY * n + 4 * blockX + ((i * 4 + j) / 4 * n + (i * 4 + j) % 4)
          = k * (n * n) + 4 * blockY * n + 4 * blockX + (q' / 4 * n + q' % 4) := hw.2
      rw [hdm.1, hdm.2] at hkey
      have hjn : q' % 4 < n := by omega
      have hkey' : q' / 4 * n + q' % 4 = i * n + j := by omega
      have := mulAdd_left_inj hjn (by omega : j < n) hkey'
      have hq'eq := Nat.div_add_mod' q' 4
      omega)
  simp only [] at this
  rw [hdm.1, hdm.2] at this
  exact this

theorem winOutTile_frame (n : ℕ) (s : α) (Mv : ℕ → α) (K k blockX blockY : ℕ)
    (Y : ℕ → α) (idx : ℕ)
    (h : ∀ i < 4, ∀ j < 4, 4 * blockY + i < n → 4 * blockX + j < n →
      idx ≠ k * (n * n) + 4 * blockY * n + 4 * blockX + (i * n + j)) :
    winOutTile n s Mv K k blockX blockY Y idx = Y idx := by
  unfold winOutTile
  rw [foldl_range_pair
    (fun i j Yv =>
      if 4 * blockY + i < n ∧ 4 * blockX + j < n then
        Function.update Yv (k * (n * n) + 4 * blockY * n + 4 * blockX + (i * n + j))
          (oVal s Mv K (WP n) k (blockY * WTILES n + blockX) i j)
      else Yv) 4 4 Y]
  have h44 : (4 : ℕ) * 4 = 16 := by norm_num
  rw [h44]
  refine foldl_write_frame 16
    (fun q Yv =>
      if 4 * blockY + q / 4 < n ∧ 4 * blockX + q % 4 < n then
        Function.update Yv
          (k * (n * n) + 4 * blockY * n + 4 * blockX + (q / 4 * n + q % 4))
          (oVal s Mv K (WP n) k (blockY * WTILES n + blockX) (q / 4) (q % 4))
      else Yv)
    (fun q idx => (4 * blockY + q / 4 < n ∧ 4 * blockX + q % 4 < n)
      ∧ idx = k * (n * n) + 4 * blockY * n + 4 * blockX + (q / 4 * n + q % 4))
    (fun q _ Yv idx hidx => by
      show (if 4 * blockY + q / 4 < n ∧ 4 * blockX + q % 4 < n then
          Function.update Yv
            (k * (n * n) + 4 * blockY * n + 4 * blockX + (q / 4 * n + q % 4))
            (oVal s Mv K (WP n) k (blockY * WTILES n + blockX) (q / 4) (q % 4))
        else Yv) idx = Yv idx
      by_cases hc : 4 * blockY + q / 4 < n ∧ 4 * blockX + q % 4 < n
      · rw [if_pos hc]
        exact Function.update_noteq (fun he => hidx ⟨hc, he⟩) _ _
      · rw [if_neg hc])
    Y idx
    (fun q hq hw =>
      h (q / 4) (by omega) (q % 4) (by omega) hw.1.1 hw.1.2 hw.2)

/-- Decoding the linear tile counter `k * P + a * WTILES + b`. -/
theorem decode3 (n k a b : ℕ) (ha : a < WTILES n) (hb : b < WTILES n) :
    (k * WP n + a * WTILES n + b) / WP n = k
      ∧ (k * WP n + a * WTILES n + b) % WP n / WTILES n = a
      ∧ (k * WP n + a * WTILES n + b) % WTILES n = b := by
  have hWT : 0 < WTILES n := by omega
  have hab : a * WTILES n + b < WP n := by
    unfold WP
    calc a * WTILES n + b < a * WTILES n + WTILES n := by omega
      _ = (a + 1) * WTILES n := by ring
      _ ≤ WTILES n * WTILES n := Nat.mul_le_mul_right (WTILES n) (by omega)
  have hgr : k * WP n + a * WTILES n + b = WP n * k + (a * WTILES n + b) := by ring
  have hmodP : (k * WP n + a * WTILES n + b) % WP n = a * WTILES n + b := by
    rw [hgr, Nat.mul_add_mod, Nat.mod_eq_of_lt hab]
  refine ⟨?_, ?_, ?_⟩
  · rw [hgr, Nat.mul_add_div (by omega), Nat.div_eq_of_lt hab, Nat.add_zero]
  · rw [hmodP, mul_comm a (WTILES n), Nat.mul_add_div hWT, Nat.div_eq_of_lt hb,
      Nat.add_zero]
  · have hgr2 : k * WP n + a * WTILES n + b = WTILES n * (k * WTILES n + a) + b := by
      unfold WP
      ring
    rw [hgr2, Nat.mul_add_mod, Nat.mod_eq_of_lt hb]

/-- The three nested loops of `winograd_transform_out` are the linear fold over
all `K * P` (channel, tile) pairs. -/
theorem winograd_transform_out_eq_lin (n : ℕ) (s : α) (Mv Y0 : ℕ → α) (K : ℕ) :
    winograd_transform_out n s Mv Y0 K
      = (List.range (K * WP n)).foldl
          (fun Y u => winOutTile n s Mv K (u / WP n) (u % WP n / WTILES n) (u % WTILES n) Y)
          Y0 := by
  unfold winograd_transform_out
  have h1 : ∀ (Y : ℕ → α), ∀ k ∈ List.range K,
      (List.range (WTILES n)).foldl
          (fun Y blockX => (List.range (WTILES n)).foldl
            (fun Y blockY => winOutTile n s Mv K k blockX blockY Y) Y) Y
        = (List.range (WP n)).foldl
          (fun Y q => winOutTile n s Mv K k (q / WTILES n) (q % WTILES n) Y) Y := by
    intro Y k _
    exact foldl_range_pair
      (fun blockX blockY Y => winOutTile n s Mv K k blockX blockY Y) _ _ Y
  have h2 : ∀ (Y : ℕ → α), ∀ u ∈ List.range (K * WP n),
      winOutTile n s Mv K (u / WP n) (u % WP n / WTILES n) (u % WP n % WTILES n) Y
        = winOutTile n s Mv K (u / WP n) (u % WP n / WTILES n) (u % WTILES n) Y := by
    intro Y u _
    rw [Nat.mod_mod_of_dvd u
      (show WTILES n ∣ WP n from dvd_mul_left (WTILES n) (WTILES n))]
  refine Eq.trans (List.foldl_ext _ _ _ h1) ?_
  refine Eq.trans
    (foldl_range_pair
      (fun k q Y => winOutTile n s Mv K k (q / WTILES n) (q % WTILES n) Y)
      K (WP n) _) ?_
  exact List.foldl_ext _ _ _ h2

/-- Characterization of `winograd_transform_out`: every in-bounds output cell
`(k, yy, xx)` receives the `(yy % 4, xx % 4)` entry of the inverse-transformed
block of tile `(yy / 4, xx / 4)` of channel `k`. -/
theorem winOut_char (n : ℕ) (s : α) (Mv Y0 : ℕ → α) (K : ℕ)
    (k yy xx : ℕ) (hk : k < K) (hyy : yy < n) (hxx : xx < n) :
    winograd_transform_out n s Mv Y0 K (k * (n * n) + yy * n + xx)
      = oVal s Mv K (WP n) k (yy / 4 * WTILES n + xx / 4) (yy % 4) (xx % 4) := by
  have hWT : 0 < WTILES n := by
    unfold WTILES
    omega
  have hyW : yy / 4 < WTILES n := by
    unfold WTILES
    omega
  have hxW : xx / 4 < WTILES n := by
    unfold WTILES
    omega
  rw [winograd_transform_out_eq_lin]
  set u0 := k * WP n + xx / 4 * WTILES n + yy / 4 with hu0
  obtain ⟨hd1, hd2, hd3⟩ := decode3 n k (xx / 4) (yy / 4) hxW hyW
  have hu0N : u0 < K * WP n := by
    have hsub : xx / 4 * WTILES n + yy / 4 < WP n := by
      unfold WP
      calc xx / 4 * WTILES n + yy / 4 < xx / 4 * WTILES n + WTILES n := by omega
        _ = (xx / 4 + 1) * WTILES n := by ring
        _ ≤ WTILES n * WTILES n := Nat.mul_le_mul_right (WTILES n) (by omega)
    calc u0 = k * WP n + (xx / 4 * WTILES n + yy / 4) := by omega
      _ < k * WP n + WP n := by omega
      _ = (k + 1) * WP n := by ring
      _ ≤ K * WP n := Nat.mul_le_mul_right (WP n) (by omega)
  have hidx : k * (n * n) + yy * n + xx
      = k * (n * n) + 4 * (yy / 4) * n + 4 * (xx / 4) + (yy % 4 * n + xx % 4) := by
    have hy4 := Nat.div_add_mod yy 4
    have hx4 := Nat.div_add_mod xx 4
    have : (4 * (yy / 4) + yy % 4) * n = 4 * (yy / 4) * n + yy % 4 * n := by ring
    calc k * (n * n) + yy * n + xx
        = k * (n * n) + (4 * (yy / 4) + yy % 4) * n + (4 * (xx / 4) + xx % 4) := by
          rw [hy4, hx4]
      _ = k * (n * n) + 4 * (yy / 4) * n + 4 * (xx / 4) + (yy % 4 * n + xx % 4) := by
          ring
  have := foldl_write_last (K * WP n)
    (fun u Y => winOutTile n s Mv K (u / WP n) (u % WP n / WTILES n) (u % WTILES n) Y)
    (fun u idx => ∃ i, i < 4 ∧ ∃ j, j < 4 ∧ 4 * (u % WTILES n) + i < n
      ∧ 4 * (u % WP n / WTILES n) + j < n
      ∧ idx = u / WP n * (n * n) + 4 * (u % WTILES n) * n + 4 * (u % WP n / WTILES n)
          + (i * n + j))
    (fun u idx => oVal s Mv K (WP n) (u / WP n)
      (u % WTILES n * WTILES n + u % WP n / WTILES n)
      ((idx - u / WP n * (n * n)) / n - 4 * (u % WTILES n))
      ((idx - u / WP n * (n * n)) % n - 4 * (u % WP n / WTILES n)))
    (fun u hu Y idx hidx => by
      obtain ⟨i, hi, j, hj, hgi, hgj, hkey⟩ := hidx
      show winOutTile n s Mv K (u / WP n) (u % WP n / WTILES n) (u % WTILES n) Y idx
        = _
      rw [hkey, winOutTile_in n s Mv K (u / WP n) (u % WP n / WTILES n) (u % WTILES n)
        Y i j hi hj hgi hgj]
      simp only []
      have hoff : u / WP n * (n * n) + 4 * (u % WTILES n) * n + 4 * (u % WP n / WTILES n)
            + (i * n + j) - u / WP n * (n * n)
          = (4 * (u % WTILES n) + i) * n + (4 * (u % WP n / WTILES n) + j) := by
        have : 4 * (u % WTILES n) * n + 4 * (u % WP n / WTILES n) + (i * n + j)
            = (4 * (u % WTILES n) + i) * n + (4 * (u % WP n / WTILES n) + j) := by ring
        omega
      have hjlt : 4 * (u % WP n / WTILES n) + j < n := hgj
      have hdivn : ((4 * (u % WTILES n) + i) * n + (4 * (u % WP n / WTILES n) + j)) / n
          = 4 * (u % WTILES n) + i := by
        rw [mul_comm (4 * (u % WTILES n) + i) n, Nat.mul_add_div (by omega),
          Nat.div_eq_of_lt hjlt, Nat.add_zero]
      have hmodn : ((4 * (u % WTILES n) + i) * n + (4 * (u % WP n / WTILES n) + j)) % n
          = 4 * (u % WP n / WTILES n) + j := by
        rw [mul_comm (4 * (u % WTILES n) + i) n, Nat.mul_add_mod, Nat.mod_eq_of_lt hjlt]
      rw [hoff, hdivn, hmodn, Nat.add_sub_cancel_left, Nat.add_sub_cancel_left])
    (fun u hu Y idx hidx => by
      show winOutTile n s Mv K (u / WP n) (u % WP n / WTILES n) (u % WTILES n) Y idx
        = Y idx
      refine winOutTile_frame n s Mv K (u / WP n) (u % WP n / WTILES n) (u % WTILES n)
        Y idx (fun i hi j hj hgi hgj hkey => ?_)
      exact hidx ⟨i, hi, j, hj, hgi, hgj, hkey⟩)
    Y0 u0 (k * (n * n) + yy * n + xx) hu0N
    (by
      refine ⟨yy % 4, by omega, xx % 4, by omega, ?_, ?_, ?_⟩
      · rw [hd3]
        omega
      · rw [hd2]
        omega
      · rw [hd1, hd2, hd3]
        exact hidx)
    (fun u' hgt hu' hw => by
      obtain ⟨i, hi, j, hj, hgi, hgj, hkey⟩ := hw
      -- the same output cell cannot be written by a later (channel, tile) pair
      have hrl : yy * n + xx < n * n := by
        calc yy * n + xx < yy * n + n := by omega
          _ = (yy + 1) * n := by ring
          _ ≤ n * n := Nat.mul_le_mul_right n (by omega)
      have hrr : (4 * (u' % WTILES n) + i) * n + (4 * (u' % WP n / WTILES n) + j) < n * n := by
        calc (4 * (u' % WTILES n) + i) * n + (4 * (u' % WP n / WTILES n) + j)
            < (4 * (u' % WTILES n) + i) * n + n := by omega
          _ = (4 * (u' % WTILES n) + i + 1) * n := by ring
          _ ≤ n * n := Nat.mul_le_mul_right n (by omega)
      have hkey' : k * (n * n) + (yy * n + xx)
          = u' / WP n * (n * n)
            + ((4 * (u' % WTILES n) + i) * n + (4 * (u' % WP n / WTILES n) + j)) := by
        have hra : 4 * (u' % WTILES n) * n + 4 * (u' % WP n / WTILES n) + (i * n + j)
            = (4 * (u' % WTILES n) + i) * n + (4 * (u' % WP n / WTILES n) + j) := by ring
        omega
      obtain ⟨hch, hplane⟩ := mulAdd_left_inj hrl hrr hkey'
      obtain ⟨hyyd, hxxd⟩ := mulAdd_left_inj (by omega : xx < n) hgj hplane
      -- recover u' from its decode and derive u' = u0
      have hdec := tileIndex_decomp n u'
      have hby : u' % WTILES n = yy / 4 := by omega
      have hbx : u' % WP n / WTILES n = xx / 4 := by omega
      have hchk : u' / WP n = k := hch.symm
      rw [hchk, hby, hbx] at hdec
      omega)
  simp only [] at this
  rw [this]
  rw [hd1, hd2, hd3]
  have hsubidx : k * (n * n) + yy * n + xx - k * (n * n) = yy * n + xx := by omega
  rw [hsubidx]
  have hdivn2 : (yy * n + xx) / n = yy := by
    rw [mul_comm yy n, Nat.mul_add_div (by omega), Nat.div_eq_of_lt hxx, Nat.add_zero]
  have hmodn2 : (yy * n + xx) % n = xx := by
    rw [mul_comm yy n, Nat.mul_add_mod, Nat.mod_eq_of_lt hxx]
  rw [hdivn2, hmodn2]
  congr 1
  · omega
  · omega

/-- Frame property of `winograd_transform_out`: no index at or beyond
`K * H * W` is written. -/
theorem winOut_frame (n : ℕ) (s : α) (Mv Y0 : ℕ → α) (K : ℕ) (idx : ℕ)
    (h : K * (n * n) ≤ idx) :
    winograd_transform_out n s Mv Y0 K idx = Y0 idx := by
  rw [winograd_transform_out_eq_lin]
  refine foldl_write_frame (K * WP n)
    (fun u Y => winOutTile n s Mv K (u / WP n) (u % WP n / WTILES n) (u % WTILES n) Y)
    (fun u idx => ∃ i, i < 4 ∧ ∃ j, j < 4 ∧ 4 * (u % WTILES n) + i < n
      ∧ 4 * (u % WP n / WTILES n) + j < n
      ∧ idx = u / WP n * (n * n) + 4 * (u % WTILES n) * n + 4 * (u % WP n / WTILES n)
          + (i * n + j))
    (fun u hu Y idx hidx => by
      show winOutTile n s Mv K (u / WP n) (u % WP n / WTILES n) (u % WTILES n) Y idx
        = Y idx
      refine winOutTile_frame n s Mv K (u / WP n) (u % WP n / WTILES n) (u % WTILES n)
        Y idx (fun i hi j hj hgi hgj hkey => ?_)
      exact hidx ⟨i, hi, j, hj, hgi, hgj, hkey⟩)
    Y0 idx
    (fun u hu hw => by
      obtain ⟨i, hi, j, hj, hgi, hgj, hkey⟩ := hw
      -- a written index always lies inside the K * n * n output region
      have hch : u / WP n < K := Nat.div_lt_of_lt_mul (by rw [mul_comm (WP n) K]; exact hu)
      have hoffb : (4 * (u % WTILES n) + i) * n + (4 * (u % WP n / WTILES n) + j) < n * n := by
        calc (4 * (u % WTILES n) + i) * n + (4 * (u % WP n / WTILES n) + j)
            < (4 * (u % WTILES n) + i) * n + n := by omega
          _ = (4 * (u % WTILES n) + i + 1) * n := by ring
          _ ≤ n * n := Nat.mul_le_mul_right n (by omega)
      have hmono : u / WP n * (n * n) + n * n ≤ K * (n * n) := by
        have : (u / WP n + 1) * (n * n) ≤ K * (n * n) :=
          Nat.mul_le_mul_right (n * n) (by omega)
        have hsu : (u / WP n + 1) * (n * n) = u / WP n * (n * n) + n * n := by ring
        omega
      have hra : 4 * (u % WTILES n) * n + 4 * (u % WP n / WTILES n) + (i * n + j)
          = (4 * (u % WTILES n) + i) * n + (4 * (u % WP n / WTILES n) + j) := by ring
      omega)

/-! ### Small arithmetic and order helpers -/

/-- The rectification `(v > 0) ? v : 0` is `max 0 v`. -/
theorem ite_pos_eq_max (v : α) : (if 0 < v then v else 0) = max 0 v := by
  by_cases h : 0 < v
  · rw [if_pos h, max_eq_right h.le]
  · rw [if_neg h, max_eq_left (le_of_not_lt h)]

theorem chan_index_facts (ss C c b : ℕ) (hc : c < C) (hb : b < ss) :
    c * ss + b < C * ss ∧ (c * ss + b) / ss = c := by
  constructor
  · calc c * ss + b < c * ss + ss := by omega
      _ = (c + 1) * ss := by ring
      _ ≤ C * ss := Nat.mul_le_mul_right ss (by omega)
  · rw [mul_comm c ss, Nat.mul_add_div (by omega), Nat.div_eq_of_lt hb, Nat.add_zero]

/-! ### Claim C4: the batched GEMM overwrites each band slice with the product -/

/-- C4: for every band `b < 36` and all `k < K`, `p < P`, `winograd_sgemm`
sets `M[b*K*P + k*P + p]` to exactly `Σ_{c<C} U[b*K*C + c*K + k] *
V[b*C*P + c*P + p]` (`alpha = 1`, `beta = 0`): the result does not depend on
the prior contents `M0` of the output buffer — no accumulation. -/
theorem claim_C4_sgemm_band_product (n : ℕ) (U V M0 : ℕ → α) (C K b k p : ℕ)
    (hb : b < 36) (hk : k < K) (hp : p < WP n) :
    winograd_sgemm n U V M0 C K (b * (K * WP n) + k * WP n + p)
      = ∑ c ∈ Finset.range C,
          U (b * (K * C) + c * K + k) * V (b * (C * WP n) + c * WP n + p) := by
  rw [Nat.add_assoc]
  exact winograd_sgemm_char n U V M0 C K b k p hb hk hp

theorem claim_C4_witness :
    winograd_sgemm 1 (fun _ => (1 : ℚ)) (fun _ => 1) (fun _ => 5) 1 1
        (0 * (1 * WP 1) + 0 * WP 1 + 0)
      = ∑ c ∈ Finset.range 1, (1 : ℚ) * 1 :=
  claim_C4_sgemm_band_product 1 (fun _ => (1 : ℚ)) (fun _ => 1) (fun _ => 5) 1 1 0 0 0
    (by norm_num) (by norm_num) (by decide)

/-! ### Claim C5: the two batch-normalization variants -/

/-- C5: for every channel `c < C` and spatial position `b < ss`, the
with-activation variant stores `max 0 (scale[c]·(x − mean[c]))` without a
residual and `max 0 (scale[c]·(x − mean[c]) + res[c·ss+b])` with one, while
the without-activation variant stores `scale[c]·(x − mean[c])` unrectified;
`mean` and `scale` are read at `c` only — broadcast across the channel. -/
theorem claim_C5_batchnorm_variants (ss C : ℕ) (d means stddevs res : ℕ → α)
    (c b : ℕ) (hc : c < C) (hb : b < ss) :
    batchnorm ss C d means stddevs none (c * ss + b)
        = max 0 (stddevs c * (d (c * ss + b) - means c))
      ∧ batchnorm ss C d means stddevs (some res) (c * ss + b)
        = max 0 (stddevs c * (d (c * ss + b) - means c) + res (c * ss + b))
      ∧ batchnorm_no_relu ss C d means stddevs (c * ss + b)
        = stddevs c * (d (c * ss + b) - means c) := by
  obtain ⟨hidx, hdiv⟩ := chan_index_facts ss C c b hc hb
  refine ⟨?_, ?_, ?_⟩
  · unfold batchnorm
    rw [if_pos hidx]
    dsimp only
    rw [ite_pos_eq_max, hdiv]
  · unfold batchnorm
    rw [if_pos hidx]
    dsimp only
    rw [ite_pos_eq_max, hdiv]
  · unfold batchnorm_no_relu
    rw [if_pos hidx, hdiv]

theorem claim_C5_witness :
    (batchnorm 1 1 (fun _ => (3 : ℚ)) (fun _ => 1) (fun _ => 2) none (0 * 1 + 0)
        = max 0 (2 * (3 - 1))
      ∧ batchnorm 1 1 (fun _ => (3 : ℚ)) (fun _ => 1) (fun _ => 2)
          (some fun _ => 7) (0 * 1 + 0)
        = max 0 (2 * (3 - 1) + 7)
      ∧ batchnorm_no_relu 1 1 (fun _ => (3 : ℚ)) (fun _ => 1) (fun _ => 2) (0 * 1 + 0)
        = 2 * (3 - 1)) :=
  claim_C5_batchnorm_variants 1 1 (fun _ => (3 : ℚ)) (fun _ => 1) (fun _ => 2)
    (fun _ => 7) 0 0 (by norm_num) (by norm_num)

/-! ### Claim C6: winograd_convolve3 derives C and composes the stages -/

/-- C6: for a weight vector of length `outputs * C * 36`, `winograd_convolve3`
derives the input channel count `C = U.size() / (outputs * 36)` and produces
its result by the input transform, then the batched GEMM, then the output
transform, in that order, on the scratch buffers `V` and `M`. -/
theorem claim_C6_convolve3_composition (n : ℕ) (s : α) (outputs C : ℕ)
    (houtputs : 0 < outputs) (input Ud V M out : ℕ → α) :
    winograd_convolve3 n s outputs input ⟨outputs * C * 36, Ud⟩ V M out
      = (winograd_transform_in n s input V C,
         winograd_sgemm n Ud (winograd_transform_in n s input V C) M C outputs,
         winograd_transform_out n s
           (winograd_sgemm n Ud (winograd_transform_in n s input V C) M C outputs)
           out outputs) := by
  have hC : outputs * C * 36 / (outputs * 36) = C := by
    rw [show outputs * C * 36 = C * (outputs * 36) from by ring]
    exact Nat.mul_div_cancel C (by positivity)
  show (winograd_transform_in n s input V (outputs * C * 36 / (outputs * 36)),
        winograd_sgemm n Ud
          (winograd_transform_in n s input V (outputs * C * 36 / (outputs * 36))) M
          (outputs * C * 36 / (outputs * 36)) outputs,
        winograd_transform_out n s
          (winograd_sgemm n Ud
            (winograd_transform_in n s input V (outputs * C * 36 / (outputs * 36))) M
            (outputs * C * 36 / (outputs * 36)) outputs)
          out outputs) = _
  rw [hC]

theorem claim_C6_witness :
    winograd_convolve3 1 (0 : ℚ) 1 (fun _ => 0) ⟨1 * 1 * 36, fun _ => 0⟩
        (fun _ => 0) (fun _ => 0) (fun _ => 0)
      = (winograd_transform_in 1 (0 : ℚ) (fun _ => 0) (fun _ => 0) 1,
         winograd_sgemm 1 (fun _ => (0 : ℚ))
           (winograd_transform_in 1 (0 : ℚ) (fun _ => 0) (fun _ => 0) 1) (fun _ => 0) 1 1,
         winograd_transform_out 1 (0 : ℚ)
           (winograd_sgemm 1 (fun _ => (0 : ℚ))
             (winograd_transform_in 1 (0 : ℚ) (fun _ => 0) (fun _ => 0) 1) (fun _ => 0) 1 1)
           (fun _ => 0) 1) :=
  claim_C6_convolve3_composition 1 (0 : ℚ) 1 1 (by norm_num) (fun _ => 0) (fun _ => 0)
    (fun _ => 0) (fun _ => 0) (fun _ => 0)

/-! ### Claim C7: the buffered scatter equals the direct scatter -/

/-- C7: for every band `< 36`, channel `< C` and tile index `< P`, the
buffered scatter of `winograd_transform_in` (staging up to 32 tiles and
flushing when full or at the final tile of the last channel) stores at
`V[band*C*P + channel*P + tile]` exactly what the unbuffered direct scatter
(`winograd_transform_in_direct`, modelled from the spec) stores there. -/
theorem claim_C7_buffered_scatter_equals_direct (n : ℕ) (s : α)
    (input V0 : ℕ → α) (C : ℕ) (hn : 0 < n) (hC : 0 < C)
    (band ch ti : ℕ) (hband : band < 36) (hch : ch < C) (hti : ti < WP n) :
    winograd_transform_in n s input V0 C (band * (C * WP n) + ch * WP n + ti)
      = winograd_transform_in_direct n s input V0 C
          (band * (C * WP n) + ch * WP n + ti) := by
  have ht : ch * WP n + ti < C * WP n := by
    calc ch * WP n + ti < ch * WP n + WP n := by omega
      _ = (ch + 1) * WP n := by ring
      _ ≤ C * WP n := Nat.mul_le_mul_right (WP n) (by omega)
  have hidx : band * (C * WP n) + ch * WP n + ti
      = band * (C * WP n) + (ch * WP n + ti) := by omega
  rw [hidx, winIn_char n s input V0 C hn hC band (ch * WP n + ti) hband ht]
  have hlt : band * (C * WP n) + (ch * WP n + ti) < 36 * (C * WP n) := by
    calc band * (C * WP n) + (ch * WP n + ti) < band * (C * WP n) + C * WP n := by omega
      _ = (band + 1) * (C * WP n) := by ring
      _ ≤ 36 * (C * WP n) := Nat.mul_le_mul_right (C * WP n) (by omega)
  have hdivband : (band * (C * WP n) + (ch * WP n + ti)) / (C * WP n) = band := by
    rw [mul_comm band (C * WP n), Nat.mul_add_div (by omega), Nat.div_eq_of_lt ht,
      Nat.add_zero]
  have hmodband : (band * (C * WP n) + (ch * WP n + ti)) % (C * WP n)
      = ch * WP n + ti := by
    rw [mul_comm band (C * WP n), Nat.mul_add_mod, Nat.mod_eq_of_lt ht]
  unfold winograd_transform_in_direct
  rw [if_pos hlt, hdivband, hmodband]
  unfold tvIn
  rw [Nat.mod_mod_of_dvd (ch * WP n + ti)
    (show WTILES n ∣ WP n from dvd_mul_left (WTILES n) (WTILES n))]

theorem claim_C7_witness :
    winograd_transform_in 1 (0 : ℚ) (fun _ => 2) (fun _ => 0) 1
        (0 * (1 * WP 1) + 0 * WP 1 + 0)
      = winograd_transform_in_direct 1 (0 : ℚ) (fun _ => 2) (fun _ => 0) 1
          (0 * (1 * WP 1) + 0 * WP 1 + 0) :=
  claim_C7_buffered_scatter_equals_direct 1 (0 : ℚ) (fun _ => 2) (fun _ => 0) 1
    (by norm_num) (by norm_num) 0 0 0 (by norm_num) (by norm_num) (by decide)

/-! ### Claim C8: the output transform writes only in-bounds cells -/

/-- C8: `winograd_transform_out` stores a value only at in-bounds positions:
every cell `(k, y+i, x+j)` with `y+i < H` and `x+j < W` is stored at index
`k*H*W + (y+i)*W + (x+j)` (the value of the corresponding tile block entry),
and every index at or beyond `K*H*W` is left untouched — out-of-bounds cells
of boundary tiles are discarded and no out-of-range index is written (tile
origins `y = 4*blockY`, `x = 4*blockX` are naturals, never negative). -/
theorem claim_C8_output_transform_bounds (n : ℕ) (s : α) (Mv Y0 : ℕ → α)
    (K : ℕ) :
    (∀ k < K, ∀ yy < n, ∀ xx < n,
      winograd_transform_out n s Mv Y0 K (k * (n * n) + yy * n + xx)
        = oVal s Mv K (WP n) k (yy / 4 * WTILES n + xx / 4) (yy % 4) (xx % 4))
    ∧ (∀ idx, K * (n * n) ≤ idx →
        winograd_transform_out n s Mv Y0 K idx = Y0 idx) :=
  ⟨fun k hk yy hyy xx hxx => winOut_char n s Mv Y0 K k yy xx hk hyy hxx,
   fun idx hidx => winOut_frame n s Mv Y0 K idx hidx⟩

theorem claim_C8_witness :
    winograd_transform_out 1 (0 : ℚ) (fun _ => 0) (fun _ => 9) 1
        (0 * (1 * 1) + 0 * 1 + 0)
      = oVal 0 (fun _ => 0) 1 (WP 1) 0 (0 / 4 * WTILES 1 + 0 / 4) (0 % 4) (0 % 4)
    ∧ winograd_transform_out 1 (0 : ℚ) (fun _ => 0) (fun _ => 9) 1 1 = 9 :=
  ⟨(claim_C8_output_transform_bounds 1 (0 : ℚ) (fun _ => 0) (fun _ => 9) 1).1
      0 (by norm_num) 0 (by norm_num) 0 (by norm_num),
   (claim_C8_output_transform_bounds 1 (0 : ℚ) (fun _ => 0) (fun _ => 9) 1).2
      1 (by norm_num)⟩

/-! ### Composition: one output cell of the 3×3 Winograd convolution -/

/-- Reading the output transform's gather through `winograd_sgemm` replaces
each band value by the band's weight/input product. -/
theorem oVal_sgemm (n : ℕ) (s : α) (U Vv M0 : ℕ → α) (C K : ℕ) (k b i j : ℕ)
    (hk : k < K) (hb : b < WP n) :
    oVal s (winograd_sgemm n U Vv M0 C K) K (WP n) k b i j
      = ∑ q ∈ Finset.range 6,
          (∑ q' ∈ Finset.range 6, At s i q' *
            (∑ c ∈ Finset.range C, U ((q' * 6 + q) * (K * C) + c * K + k)
              * Vv ((q' * 6 + q) * (C * WP n) + c * WP n + b)))
          * At s j q := by
  unfold oVal
  apply Finset.sum_congr rfl
  intro q hq
  congr 1
  apply Finset.sum_congr rfl
  intro q' hq'
  congr 1
  have hband : q' * 6 + q < 36 := by
    have h1 := Finset.mem_range.mp hq
    have h2 := Finset.mem_range.mp hq'
    omega
  have h := winograd_sgemm_char n U Vv M0 C K (q' * 6 + q) k b hband hk hb
  rw [← Nat.add_assoc] at h
  exact h

/-- Characterization of `winograd_convolve3`: each in-range output cell holds
the closed-form `convFormula` value — independent of the contents of the
scratch buffers `V`, `M` and of the output buffer. -/
theorem conv3_char (n : ℕ) (s : α) (K : ℕ) (input : ℕ → α) (U : FVec α)
    (V M out : ℕ → α) (hn : 0 < n) (idx : ℕ) (hidx : idx < K * (n * n)) :
    (winograd_convolve3 n s K input U V M out).2.2 idx
      = convFormula n s input U.data (U.size / (K * 36)) K idx := by
  set ic := U.size / (K * 36) with hic
  have hnn : 0 < n * n := by positivity
  have hk : idx / (n * n) < K :=
    Nat.div_lt_of_lt_mul (by rw [mul_comm (n * n) K]; exact hidx)
  have hyy : idx % (n * n) / n < n := Nat.div_lt_of_lt_mul (Nat.mod_lt _ hnn)
  have hxx : idx % (n * n) % n < n := Nat.mod_lt _ (by omega)
  have hWT : 0 < WTILES n := by
    unfold WTILES
    omega
  have hb : idx % (n * n) / n / 4 * WTILES n + idx % (n * n) % n / 4 < WP n := by
    have h1 : idx % (n * n) / n / 4 < WTILES n := by
      unfold WTILES
      omega
    have h2 : idx % (n * n) % n / 4 < WTILES n := by
      unfold WTILES
      omega
    unfold WP
    calc idx % (n * n) / n / 4 * WTILES n + idx % (n * n) % n / 4
        < idx % (n * n) / n / 4 * WTILES n + WTILES n := by omega
      _ = (idx % (n * n) / n / 4 + 1) * WTILES n := by ring
      _ ≤ WTILES n * WTILES n := Nat.mul_le_mul_right (WTILES n) (by omega)
  have hdecomp : idx
      = idx / (n * n) * (n * n) + idx % (n * n) / n * n + idx % (n * n) % n := by
    have h1 := Nat.div_add_mod' idx (n * n)
    have h2 := Nat.div_add_mod' (idx % (n * n)) n
    omega
  show winograd_transform_out n s
      (winograd_sgemm n U.data (winograd_transform_in n s input V ic) M ic K)
      out K idx = _
  conv_lhs => rw [hdecomp]
  rw [winOut_char n s _ out K (idx / (n * n)) (idx % (n * n) / n) (idx % (n * n) % n)
    hk hyy hxx]
  rw [oVal_sgemm n s U.data (winograd_transform_in n s input V ic) M ic K
    (idx / (n * n)) (idx % (n * n) / n / 4 * WTILES n + idx % (n * n) % n / 4)
    (idx % (n * n) / n % 4) (idx % (n * n) % n % 4) hk hb]
  unfold convFormula
  apply Finset.sum_congr rfl
  intro q hq
  congr 1
  apply Finset.sum_congr rfl
  intro q' hq'
  congr 1
  apply Finset.sum_congr rfl
  intro c hc
  congr 1
  have hcC : c < ic := Finset.mem_range.mp hc
  have ht : c * WP n
        + (idx % (n * n) / n / 4 * WTILES n + idx % (n * n) % n / 4) < ic * WP n := by
    calc c * WP n + (idx % (n * n) / n / 4 * WTILES n + idx % (n * n) % n / 4)
        < c * WP n + WP n := by omega
      _ = (c + 1) * WP n := by ring
      _ ≤ ic * WP n := Nat.mul_le_mul_right (WP n) (by omega)
  have hband : q' * 6 + q < 36 := by
    have h1 := Finset.mem_range.mp hq
    have h2 := Finset.mem_range.mp hq'
    omega
  have h := winIn_char n s input V ic hn (by omega) (q' * 6 + q)
    (c * WP n + (idx % (n * n) / n / 4 * WTILES n + idx % (n * n) % n / 4)) hband ht
  rw [← Nat.add_assoc] at h
  exact h

/-! ### Claim C9: zero input and zero weights give zero outputs -/

theorem convolve1_zero (n : ℕ) (outputs : ℕ) (input : ℕ → α)
    (weights biases : FVec α) (out0 : ℕ → α)
    (hw : ∀ i, weights.data i = 0) (hbia : ∀ i, biases.data i = 0)
    (idx : ℕ) (h : idx < outputs * (n * n)) :
    convolve1 n outputs input weights biases out0 idx = 0 := by
  unfold convolve1
  rw [if_pos h]
  simp [hw, hbia]

/-- C9: with an all-zero input tensor and all-zero weight-set entries and
biases, a forward call produces exactly zero at every position of both the
policy and the value output arrays. -/
theorem claim_C9_zero_forward (n OP OV : ℕ) (pipe : CPUPipeSt ℝ)
    (hconv : ∀ t i, (pipe.m_weights.m_conv_weights t).data i = 0)
    (hmeans : ∀ t i, pipe.m_weights.m_batchnorm_means t i = 0)
    (hstd : ∀ t i, pipe.m_weights.m_batchnorm_stddevs t i = 0)
    (hsew : ∀ t i, pipe.m_weights.m_se_weights t i = 0)
    (hseb : ∀ t i, pipe.m_weights.m_se_biases t i = 0)
    (hpolw : ∀ i, pipe.m_conv_pol_w.data i = 0)
    (hpolb : ∀ i, pipe.m_conv_pol_b.data i = 0)
    (hvalw : ∀ i, pipe.m_conv_val_w.data i = 0)
    (hvalb : ∀ i, pipe.m_conv_val_b.data i = 0)
    (input output_pol output_val : ℕ → ℝ) (hinput : ∀ i, input i = 0) :
    (∀ idx < OP * (n * n),
      (forward n (Real.sqrt 2) realSigmoid OP OV pipe input output_pol output_val).1 idx
        = 0)
    ∧ (∀ idx < OV * (n * n),
      (forward n (Real.sqrt 2) realSigmoid OP OV pipe input output_pol output_val).2 idx
        = 0) := by
  constructor
  · intro idx hidx
    exact convolve1_zero n OP _ pipe.m_conv_pol_w pipe.m_conv_pol_b output_pol
      hpolw hpolb idx hidx
  · intro idx hidx
    exact convolve1_zero n OV _ pipe.m_conv_val_w pipe.m_conv_val_b output_val
      hvalw hvalb idx hidx

theorem claim_C9_witness :
    (forward 1 (Real.sqrt 2) realSigmoid 1 1
      (⟨1, ⟨1, fun _ => ⟨36, fun _ => 0⟩, fun _ _ => 0, fun _ _ => 0, fun _ _ => 0,
          fun _ _ => 0, ⟨1, fun _ => 0⟩, ⟨1, fun _ => 0⟩⟩,
        ⟨1, fun _ => 0⟩, ⟨1, fun _ => 0⟩, ⟨1, fun _ => 0⟩, ⟨1, fun _ => 0⟩⟩ : CPUPipeSt ℝ)
      (fun _ => 0) (fun _ => 0) (fun _ => 0)).1 0 = 0 :=
  (claim_C9_zero_forward 1 1 1 _
    (fun _ _ => rfl) (fun _ _ => rfl) (fun _ _ => rfl) (fun _ _ => rfl)
    (fun _ _ => rfl) (fun _ => rfl) (fun _ => rfl) (fun _ => rfl) (fun _ => rfl)
    (fun _ => 0) (fun _ => 0) (fun _ => 0) (fun _ => rfl)).1 0 (by norm_num)

/-! ### Congruence lemmas: each stage reads only a bounded input region -/

theorem inPad_congr (n : ℕ) (input input' : ℕ → α) (ch : ℕ)
    (hag : ∀ i < (ch + 1) * (n * n), input i = input' i) (y x : ℕ) :
    inPad n input ch y x = inPad n input' ch y x := by
  unfold inPad
  by_cases h : 1 ≤ y ∧ y ≤ n ∧ 1 ≤ x ∧ x ≤ n
  · rw [if_pos h, if_pos h]
    apply hag
    obtain ⟨w, hw⟩ : ∃ w, n = w + 1 := ⟨n - 1, by omega⟩
    have h1 : (y - 1) * n ≤ (n - 1) * n := Nat.mul_le_mul_right n (by omega)
    have h2 : (n - 1) * n + n = n * n := by
      rw [hw]
      simp only [Nat.add_sub_cancel]
      ring
    have h3 : ch * (n * n) + n * n = (ch + 1) * (n * n) := by ring
    omega
  · rw [if_neg h, if_neg h]

theorem tileBand_congr (s : α) (inP inP' : ℕ → ℕ → α)
    (hag : ∀ y x, inP y x = inP' y x) (yin xin i j : ℕ) :
    tileBand s inP yin xin i j = tileBand s inP' yin xin i j := by
  unfold tileBand T1v
  apply Finset.sum_congr rfl
  intro k _
  congr 1
  apply Finset.sum_congr rfl
  intro k' _
  rw [hag]

theorem convFormula_congr (n : ℕ) (s : α) (input input' Ud : ℕ → α) (ic K : ℕ)
    (hn : 0 < n) (hag : ∀ i < ic * (n * n), input i = input' i) (idx : ℕ) :
    convFormula n s input Ud ic K idx = convFormula n s input' Ud ic K idx := by
  unfold convFormula
  apply Finset.sum_congr rfl
  intro q _
  congr 1
  apply Finset.sum_congr rfl
  intro q' _
  congr 1
  apply Finset.sum_congr rfl
  intro c hc
  congr 1
  have hcC : c < ic := Finset.mem_range.mp hc
  have hWT : 0 < WTILES n := by
    unfold WTILES
    omega
  have hblt : idx % (n * n) / n / 4 * WTILES n + idx % (n * n) % n / 4 < WP n := by
    have hyn : idx % (n * n) / n < n := Nat.div_lt_of_lt_mul (Nat.mod_lt _ (by positivity))
    have hxn : idx % (n * n) % n < n := Nat.mod_lt _ (by omega)
    have h1 : idx % (n * n) / n / 4 < WTILES n := by
      unfold WTILES
      omega
    have h2 : idx % (n * n) % n / 4 < WTILES n := by
      unfold WTILES
      omega
    unfold WP
    calc idx % (n * n) / n / 4 * WTILES n + idx % (n * n) % n / 4
        < idx % (n * n) / n / 4 * WTILES n + WTILES n := by omega
      _ = (idx % (n * n) / n / 4 + 1) * WTILES n := by ring
      _ ≤ WTILES n * WTILES n := Nat.mul_le_mul_right (WTILES n) (by omega)
  unfold tvIn
  apply tileBand_congr
  intro y x
  apply inPad_congr
  intro i' hi'
  apply hag
  have hch : (c * WP n
        + (idx % (n * n) / n / 4 * WTILES n + idx % (n * n) % n / 4)) / WP n = c := by
    rw [mul_comm c (WP n), Nat.mul_add_div (by omega), Nat.div_eq_of_lt hblt,
      Nat.add_zero]
  rw [hch] at hi'
  have : (c + 1) * (n * n) ≤ ic * (n * n) := Nat.mul_le_mul_right (n * n) (by omega)
  omega

theorem batchnorm_agree_lt (ss C : ℕ) (d d' means stddevs : ℕ → α)
    (elt : Option (ℕ → α)) (t : ℕ) (ht : t < C * ss) (hd : d t = d' t) :
    batchnorm ss C d means stddevs elt t = batchnorm ss C d' means stddevs elt t := by
  unfold batchnorm
  rw [if_pos ht, if_pos ht]
  cases elt <;> dsimp only <;> rw [hd]

theorem batchnorm_no_relu_agree_lt (ss C : ℕ) (d d' means stddevs : ℕ → α)
    (t : ℕ) (ht : t < C * ss) (hd : d t = d' t) :
    batchnorm_no_relu ss C d means stddevs t = batchnorm_no_relu ss C d' means stddevs t := by
  unfold batchnorm_no_relu
  rw [if_pos ht, if_pos ht, hd]

/-! ### Claim C1: the residual wiring of one tower block -/

/-- `towerBlock`'s updated working buffer, written out. -/
theorem towerBlock_conv_out (n : ℕ) (s : α) (sig : α → α)
    (w : ForwardPipeWeights α) (C i : ℕ) (st : TowerSt α) :
    (towerBlock n s sig w C i st).conv_out
      = seScale (n * n) C sig
          (innerproduct (C / 2) (C * 2)
            (relu (C / 2)
              (innerproduct C (C / 2)
                (avg_pool (n * n) C
                  (batchnorm_no_relu (n * n) C
                    (winograd_convolve3 n s C
                      (batchnorm (n * n) C
                        (winograd_convolve3 n s C st.conv_out (w.m_conv_weights i)
                          st.V st.M st.conv_in).2.2
                        (w.m_batchnorm_means i) (w.m_batchnorm_stddevs i) none)
                      (w.m_conv_weights (i + 1))
                      (winograd_convolve3 n s C st.conv_out (w.m_conv_weights i)
                        st.V st.M st.conv_in).1
                      (winograd_convolve3 n s C st.conv_out (w.m_conv_weights i)
                        st.V st.M st.conv_in).2.1
                      st.res).2.2
                    (w.m_batchnorm_means (i + 1)) (w.m_batchnorm_stddevs (i + 1)))
                  st.se_pool)
                (w.m_se_weights (i - 1)) (w.m_se_biases (i - 1)) st.se_fc1))
            (w.m_se_weights i) (w.m_se_biases i) st.se_fc2)
          st.conv_out
          (batchnorm_no_relu (n * n) C
            (winograd_convolve3 n s C
              (batchnorm (n * n) C
                (winograd_convolve3 n s C st.conv_out (w.m_conv_weights i)
                  st.V st.M st.conv_in).2.2
                (w.m_batchnorm_means i) (w.m_batchnorm_stddevs i) none)
              (w.m_conv_weights (i + 1))
              (winograd_convolve3 n s C st.conv_out (w.m_conv_weights i)
                st.V st.M st.conv_in).1
              (winograd_convolve3 n s C st.conv_out (w.m_conv_weights i)
                st.V st.M st.conv_in).2.1
              st.res).2.2
            (w.m_batchnorm_means (i + 1)) (w.m_batchnorm_stddevs (i + 1))) := rfl

/-- `blockOut`, written out. -/
theorem blockOut_eq (n : ℕ) (s : α) (sig : α → α)
    (w : ForwardPipeWeights α) (C i : ℕ) (x : ℕ → α) :
    blockOut n s sig w C i x
      = seScale (n * n) C sig
          (innerproduct (C / 2) (C * 2)
            (relu (C / 2)
              (innerproduct C (C / 2)
                (avg_pool (n * n) C
                  (batchnorm_no_relu (n * n) C
                    (winograd_convolve3 n s C
                      (batchnorm (n * n) C
                        (winograd_convolve3 n s C x (w.m_conv_weights i)
                          (fun _ => 0) (fun _ => 0) (fun _ => 0)).2.2
                        (w.m_batchnorm_means i) (w.m_batchnorm_stddevs i) none)
                      (w.m_conv_weights (i + 1))
                      (fun _ => 0) (fun _ => 0) (fun _ => 0)).2.2
                    (w.m_batchnorm_means (i + 1)) (w.m_batchnorm_stddevs (i + 1)))
                  (fun _ => 0))
                (w.m_se_weights (i - 1)) (w.m_se_biases (i - 1)) (fun _ => 0)))
            (w.m_se_weights i) (w.m_se_biases i) (fun _ => 0))
          x
          (batchnorm_no_relu (n * n) C
            (winograd_convolve3 n s C
              (batchnorm (n * n) C
                (winograd_convolve3 n s C x (w.m_conv_weights i)
                  (fun _ => 0) (fun _ => 0) (fun _ => 0)).2.2
                (w.m_batchnorm_means i) (w.m_batchnorm_stddevs i) none)
              (w.m_conv_weights (i + 1))
              (fun _ => 0) (fun _ => 0) (fun _ => 0)).2.2
            (w.m_batchnorm_means (i + 1)) (w.m_batchnorm_stddevs (i + 1))) := rfl

/-- One residual-block iteration of the tower equals the `blockOut`
composition: convolution + BN-with-activation, convolution +
BN-without-activation giving the SE `feature`, then the SE fusion with the
*block input* (the working buffer at iteration start) as the residual branch
`res` — written back into `conv_out`, the working buffer that becomes the
next block's input. -/
theorem towerBlock_eq_blockOut (n : ℕ) (s : α) (sig : α → α)
    (w : ForwardPipeWeights α) (C i : ℕ) (hn : 0 < n)
    (hshape : (w.m_conv_weights (i + 1)).size = C * (C * 36))
    (st : TowerSt α) (idx : ℕ) (hidx : idx < C * (n * n)) :
    (towerBlock n s sig w C i st).conv_out idx
      = blockOut n s sig w C i st.conv_out idx := by
  have hC : 0 < C := by
    rcases Nat.eq_zero_or_pos C with h | h
    · subst h
      simp at hidx
    · exact h
  have hic2 : (w.m_conv_weights (i + 1)).size / (C * 36) = C := by
    rw [hshape]
    exact Nat.mul_div_cancel C (by positivity)
  rw [towerBlock_conv_out, blockOut_eq]
  set r1L := winograd_convolve3 n s C st.conv_out (w.m_conv_weights i) st.V st.M
    st.conv_in with hr1L
  set r1R := winograd_convolve3 n s C st.conv_out (w.m_conv_weights i)
    (fun _ => 0) (fun _ => 0) (fun _ => 0) with hr1R
  set AL := batchnorm (n * n) C r1L.2.2 (w.m_batchnorm_means i)
    (w.m_batchnorm_stddevs i) none with hAL
  set AR := batchnorm (n * n) C r1R.2.2 (w.m_batchnorm_means i)
    (w.m_batchnorm_stddevs i) none with hAR
  set r2L := winograd_convolve3 n s C AL (w.m_conv_weights (i + 1)) r1L.1 r1L.2.1
    st.res with hr2L
  set r2R := winograd_convolve3 n s C AR (w.m_conv_weights (i + 1))
    (fun _ => 0) (fun _ => 0) (fun _ => 0) with hr2R
  set FL := batchnorm_no_relu (n * n) C r2L.2.2 (w.m_batchnorm_means (i + 1))
    (w.m_batchnorm_stddevs (i + 1)) with hFL
  set FR := batchnorm_no_relu (n * n) C r2R.2.2 (w.m_batchnorm_means (i + 1))
    (w.m_batchnorm_stddevs (i + 1)) with hFR
  have hA : ∀ t < C * (n * n), AL t = AR t := by
    intro t ht
    rw [hAL, hAR]
    refine batchnorm_agree_lt (n * n) C r1L.2.2 r1R.2.2 _ _ none t ht ?_
    rw [hr1L, hr1R, conv3_char n s C st.conv_out (w.m_conv_weights i) st.V st.M
      st.conv_in hn t ht,
      conv3_char n s C st.conv_out (w.m_conv_weights i) _ _ _ hn t ht]
  have hF : ∀ t < C * (n * n), FL t = FR t := by
    intro t ht
    rw [hFL, hFR]
    refine batchnorm_no_relu_agree_lt (n * n) C r2L.2.2 r2R.2.2 _ _ t ht ?_
    rw [hr2L, hr2R,
      conv3_char n s C AL (w.m_conv_weights (i + 1)) r1L.1 r1L.2.1 st.res hn t ht,
      conv3_char n s C AR (w.m_conv_weights (i + 1)) _ _ _ hn t ht]
    refine convFormula_congr n s AL AR (w.m_conv_weights (i + 1)).data
      ((w.m_conv_weights (i + 1)).size / (C * 36)) C hn ?_ t
    rw [hic2]
    exact hA
  set poolL := avg_pool (n * n) C FL st.se_pool with hpoolL
  set poolR := avg_pool (n * n) C FR (fun _ => 0) with hpoolR
  have hpool : ∀ c < C, poolL c = poolR c := by
    intro c hc
    rw [hpoolL, hpoolR]
    unfold avg_pool
    rw [if_pos hc, if_pos hc]
    have hsum : ∑ b ∈ Finset.range (n * n), FL (c * (n * n) + b)
        = ∑ b ∈ Finset.range (n * n), FR (c * (n * n) + b) := by
      apply Finset.sum_congr rfl
      intro b hb
      refine hF (c * (n * n) + b) ?_
      have hbm := Finset.mem_range.mp hb
      calc c * (n * n) + b < c * (n * n) + n * n := by omega
        _ = (c + 1) * (n * n) := by ring
        _ ≤ C * (n * n) := Nat.mul_le_mul_right (n * n) (by omega)
    rw [hsum]
  set fc1L := relu (C / 2) (innerproduct C (C / 2) poolL (w.m_se_weights (i - 1))
    (w.m_se_biases (i - 1)) st.se_fc1) with hfc1L
  set fc1R := relu (C / 2) (innerproduct C (C / 2) poolR (w.m_se_weights (i - 1))
    (w.m_se_biases (i - 1)) (fun _ => 0)) with hfc1R
  have hfc1 : ∀ o < C / 2, fc1L o = fc1R o := by
    intro o ho
    rw [hfc1L, hfc1R]
    unfold relu
    rw [if_pos ho, if_pos ho]
    have hip : innerproduct C (C / 2) poolL (w.m_se_weights (i - 1))
        (w.m_se_biases (i - 1)) st.se_fc1 o
        = innerproduct C (C / 2) poolR (w.m_se_weights (i - 1))
          (w.m_se_biases (i - 1)) (fun _ => 0) o := by
      unfold innerproduct
      rw [if_pos ho, if_pos ho]
      have hsum : ∑ k ∈ Finset.range C, w.m_se_weights (i - 1) (o * C + k) * poolL k
          = ∑ k ∈ Finset.range C, w.m_se_weights (i - 1) (o * C + k) * poolR k := by
        apply Finset.sum_congr rfl
        intro c hc
        rw [hpool c (Finset.mem_range.mp hc)]
      rw [hsum]
    rw [hip]
  set fc2L := innerproduct (C / 2) (C * 2) fc1L (w.m_se_weights i)
    (w.m_se_biases i) st.se_fc2 with hfc2L
  set fc2R := innerproduct (C / 2) (C * 2) fc1R (w.m_se_weights i)
    (w.m_se_biases i) (fun _ => 0) with hfc2R
  have hfc2 : ∀ o < C * 2, fc2L o = fc2R o := by
    intro o ho
    rw [hfc2L, hfc2R]
    unfold innerproduct
    rw [if_pos ho, if_pos ho]
    have hsum : ∑ k ∈ Finset.range (C / 2), w.m_se_weights i (o * (C / 2) + k) * fc1L k
        = ∑ k ∈ Finset.range (C / 2), w.m_se_weights i (o * (C / 2) + k) * fc1R k := by
      apply Finset.sum_congr rfl
      intro c hc
      rw [hfc1 c (Finset.mem_range.mp hc)]
    rw [hsum]
  show seScale (n * n) C sig fc2L st.conv_out FL idx
    = seScale (n * n) C sig fc2R st.conv_out FR idx
  unfold seScale
  rw [if_pos hidx, if_pos hidx]
  dsimp only
  have hdivC : idx / (n * n) < C := Nat.div_lt_of_lt_mul (by rw [mul_comm]; exact hidx)
  rw [hF idx hidx, hfc2 (idx / (n * n)) (by omega), hfc2 (C + idx / (n * n)) (by omega)]

/-- `blockOutClaimRes`, written out. -/
theorem blockOutClaimRes_eq (n : ℕ) (s : α) (sig : α → α)
    (w : ForwardPipeWeights α) (C i : ℕ) (x : ℕ → α) :
    blockOutClaimRes n s sig w C i x
      = seScale (n * n) C sig
          (innerproduct (C / 2) (C * 2)
            (relu (C / 2)
              (innerproduct C (C / 2)
                (avg_pool (n * n) C
                  (batchnorm_no_relu (n * n) C
                    (winograd_convolve3 n s C
                      (batchnorm (n * n) C
                        (winograd_convolve3 n s C x (w.m_conv_weights i)
                          (fun _ => 0) (fun _ => 0) (fun _ => 0)).2.2
                        (w.m_batchnorm_means i) (w.m_batchnorm_stddevs i) none)
                      (w.m_conv_weights (i + 1))
                      (fun _ => 0) (fun _ => 0) (fun _ => 0)).2.2
                    (w.m_batchnorm_means (i + 1)) (w.m_batchnorm_stddevs (i + 1)))
                  (fun _ => 0))
                (w.m_se_weights (i - 1)) (w.m_se_biases (i - 1)) (fun _ => 0)))
            (w.m_se_weights i) (w.m_se_biases i) (fun _ => 0))
          (batchnorm (n * n) C
            (winograd_convolve3 n s C x (w.m_conv_weights i)
              (fun _ => 0) (fun _ => 0) (fun _ => 0)).2.2
            (w.m_batchnorm_means i) (w.m_batchnorm_stddevs i) none)
          (batchnorm_no_relu (n * n) C
            (winograd_convolve3 n s C
              (batchnorm (n * n) C
                (winograd_convolve3 n s C x (w.m_conv_weights i)
                  (fun _ => 0) (fun _ => 0) (fun _ => 0)).2.2
                (w.m_batchnorm_means i) (w.m_batchnorm_stddevs i) none)
              (w.m_conv_weights (i + 1))
              (fun _ => 0) (fun _ => 0) (fun _ => 0)).2.2
            (w.m_batchnorm_means (i + 1)) (w.m_batchnorm_stddevs (i + 1))) := rfl

/-- Counterexample to claim C1 as written: with all-zero weights and a block
input of constant `1`, the code's residual-block iteration produces `1` (it
adds the block *input* as the residual), while the claim's wiring — the SE
residual branch taken from the first convolution's post-BN output — would
produce `0`. -/
theorem claim_C1_counterexample :
    (towerBlock 1 (Real.sqrt 2) realSigmoid
        ⟨3, fun _ => ⟨36, fun _ => 0⟩, fun _ _ => 0, fun _ _ => 0, fun _ _ => 0,
          fun _ _ => 0, ⟨1, fun _ => 0⟩, ⟨1, fun _ => 0⟩⟩
        1 1
        ⟨fun _ => 1, fun _ => 0, fun _ => 0, fun _ => 0, fun _ => 0, fun _ => 0,
          fun _ => 0, fun _ => 0⟩).conv_out 0 = 1
    ∧ blockOutClaimRes 1 (Real.sqrt 2) realSigmoid
        ⟨3, fun _ => ⟨36, fun _ => 0⟩, fun _ _ => 0, fun _ _ => 0, fun _ _ => 0,
          fun _ _ => 0, ⟨1, fun _ => 0⟩, ⟨1, fun _ => 0⟩⟩
        1 1 (fun _ => 1) 0 = 0 := by
  constructor
  · rw [towerBlock_conv_out]
    unfold seScale
    rw [if_pos (show (0 : ℕ) < 1 * (1 * 1) by norm_num)]
    dsimp only
    unfold batchnorm_no_relu innerproduct
    norm_num
  · rw [blockOutClaimRes_eq]
    unfold seScale
    rw [if_pos (show (0 : ℕ) < 1 * (1 * 1) by norm_num)]
    dsimp only
    unfold batchnorm batchnorm_no_relu innerproduct
    norm_num

set_option maxHeartbeats 1600000 in
theorem towerBlock_eq_blockOut_witness :
    (towerBlock 1 (0 : ℚ) (fun v => v) ⟨3, fun _ => ⟨36, fun _ => 0⟩, fun _ _ => 0,
        fun _ _ => 0, fun _ _ => 0, fun _ _ => 0, ⟨1, fun _ => 0⟩, ⟨1, fun _ => 0⟩⟩
        1 1 ⟨fun _ => 0, fun _ => 0, fun _ => 0, fun _ => 0, fun _ => 0, fun _ => 0,
          fun _ => 0, fun _ => 0⟩).conv_out 0
      = blockOut 1 (0 : ℚ) (fun v => v) ⟨3, fun _ => ⟨36, fun _ => 0⟩, fun _ _ => 0,
          fun _ _ => 0, fun _ _ => 0, fun _ _ => 0, ⟨1, fun _ => 0⟩, ⟨1, fun _ => 0⟩⟩
          1 1 (fun _ => 0) 0 :=
  towerBlock_eq_blockOut 1 (0 : ℚ) (fun v => v)
    ⟨3, fun _ => ⟨36, fun _ => 0⟩, fun _ _ => 0, fun _ _ => 0, fun _ _ => 0,
      fun _ _ => 0, ⟨1, fun _ => 0⟩, ⟨1, fun _ => 0⟩⟩ 1 1 (by norm_num) rfl
    ⟨fun _ => 0, fun _ => 0, fun _ => 0, fun _ => 0, fun _ => 0, fun _ => 0,
      fun _ => 0, fun _ => 0⟩ 0 (by norm_num)

/-! ### Claim C2: the fused squeeze-and-excitation update -/

/-- C2: for every channel `c < C` and spatial position `pos < ss`, the fused
update stores `max 0 (feature·sigmoid(gate[c]) + bias_term[c] + res)`: the
channel gate (sigmoid of `se_fc2[c]`) multiplies the feature first, then the
learned bias term `se_fc2[C + c]` and the residual are added, and the
zero-floor rectification is applied last; when the gate input and the bias
term are `0`, the result is `max 0 (0.5·feature + res)`. -/
theorem claim_C2_se_fused_update (ss C : ℕ) (fc2 res d : ℕ → ℝ) (c pos : ℕ)
    (hc : c < C) (hpos : pos < ss) :
    seScale ss C realSigmoid fc2 res d (c * ss + pos)
        = max 0 (d (c * ss + pos) * realSigmoid (fc2 c) + fc2 (C + c)
            + res (c * ss + pos))
      ∧ (fc2 c = 0 → fc2 (C + c) = 0 →
        seScale ss C realSigmoid fc2 res d (c * ss + pos)
          = max 0 (d (c * ss + pos) * (1 / 2) + res (c * ss + pos))) := by
  obtain ⟨hidx, hdiv⟩ := chan_index_facts ss C c pos hc hpos
  have hmain : seScale ss C realSigmoid fc2 res d (c * ss + pos)
      = max 0 (d (c * ss + pos) * realSigmoid (fc2 c) + fc2 (C + c)
          + res (c * ss + pos)) := by
    unfold seScale
    rw [if_pos hidx]
    dsimp only
    rw [ite_pos_eq_max, hdiv]
    congr 1
    ring
  refine ⟨hmain, fun hg hb => ?_⟩
  rw [hmain, hg, hb]
  have hsig : realSigmoid 0 = 1 / 2 := by
    unfold realSigmoid
    rw [neg_zero, Real.exp_zero]
    norm_num
  rw [hsig]
  congr 1
  ring

theorem claim_C2_witness :
    (seScale 1 1 realSigmoid (fun _ => 0) (fun _ => 2) (fun _ => 3) (0 * 1 + 0)
        = max 0 ((3 : ℝ) * realSigmoid 0 + 0 + 2)
      ∧ ((0 : ℝ) = 0 → (0 : ℝ) = 0 →
        seScale 1 1 realSigmoid (fun _ => 0) (fun _ => 2) (fun _ => 3) (0 * 1 + 0)
          = max 0 ((3 : ℝ) * (1 / 2) + 2))) :=
  claim_C2_se_fused_update 1 1 (fun _ => 0) (fun _ => 2) (fun _ => 3) 0 0
    (by norm_num) (by norm_num)

/-! ### Claim C10: push_weights ignores filter_size and channels -/

/-- C10: two `push_weights` invocations that differ only in the (unnamed,
unused) `filter_size` and `channels` parameters produce identical pipeline
states, and every subsequent `forward` call on those states produces
identical outputs. -/
theorem claim_C10_push_weights_ignores_params (pipe : CPUPipeSt α)
    (fs1 ch1 fs2 ch2 outputs : ℕ) (w : ForwardPipeWeights α) :
    push_weights pipe fs1 ch1 outputs w = push_weights pipe fs2 ch2 outputs w
    ∧ ∀ (n : ℕ) (s : α) (sig : α → α) (OP OV : ℕ) (input op ov : ℕ → α),
        forward n s sig OP OV (push_weights pipe fs1 ch1 outputs w) input op ov
          = forward n s sig OP OV (push_weights pipe fs2 ch2 outputs w) input op ov :=
  ⟨rfl, fun _ _ _ _ _ _ _ _ => rfl⟩

/-! ### Claim C3: the Winograd round trip -/

set_option maxHeartbeats 1600000 in
/-- `At · diag(uCoeff) · Bt` is the selection matrix picking row `a + 1`:
the Winograd output transform inverts the input transform on the four
interior columns once the diagonal band gains of the center-delta kernel are
interposed (using `s * s = 2`, i.e. `s` is an exact square root of two). -/
theorem Rdelta (s : α) (hs : s * s = 2) (a z : ℕ) (ha : a < 4) (hz : z < 6) :
    ∑ q ∈ Finset.range 6, At s a q * uCoeff s q * Bt s q z
      = if z = a + 1 then 1 else 0 := by
  interval_cases a <;> interval_cases z <;>
    simp only [Finset.sum_range_succ, Finset.sum_range_zero] <;>
    unfold At Bt uCoeff AtL BtL <;>
    norm_num <;>
    first
      | ring1
      | linear_combination hs / 2

/-- Contracting any 6-vector `g` against row `i` of `At`, the gains
`uCoeff`, and the rows of `Bt` selects `g (i + 1)`. -/
theorem R_contract (s : α) (hs : s * s = 2) (i : ℕ) (hi : i < 4) (g : ℕ → α) :
    ∑ q ∈ Finset.range 6,
        At s i q * uCoeff s q * (∑ k ∈ Finset.range 6, Bt s q k * g k)
      = g (i + 1) := by
  have h1 : ∑ q ∈ Finset.range 6,
        At s i q * uCoeff s q * (∑ k ∈ Finset.range 6, Bt s q k * g k)
      = ∑ k ∈ Finset.range 6,
          (∑ q ∈ Finset.range 6, At s i q * uCoeff s q * Bt s q k) * g k := by
    simp only [Finset.mul_sum, Finset.sum_mul]
    rw [Finset.sum_comm]
    exact Finset.sum_congr rfl fun k _ => Finset.sum_congr rfl fun q _ => by ring
  rw [h1]
  have h2 : ∀ k ∈ Finset.range 6,
      (∑ q ∈ Finset.range 6, At s i q * uCoeff s q * Bt s q k) * g k
        = if k = i + 1 then g k else 0 := by
    intro k hk
    rw [Rdelta s hs i k hi (Finset.mem_range.mp hk)]
    by_cases hki : k = i + 1
    · rw [if_pos hki, if_pos hki, one_mul]
    · rw [if_neg hki, if_neg hki, zero_mul]
  rw [Finset.sum_congr rfl h2, Finset.sum_ite_eq' (Finset.range 6) (i + 1) g,
    if_pos (Finset.mem_range.mpr (by omega))]

/-- Evaluating `deltaU` at the flat index read by `winograd_sgemm`: band
`band`, input channel `c`, output channel `ch`. -/
theorem deltaU_eval (s : α) (C : ℕ) (band c ch : ℕ) (hc : c < C) (hch : ch < C) :
    deltaU s C (band * (C * C) + c * C + ch)
      = if c = ch then uCoeff s (band / 6) * uCoeff s (band % 6) else 0 := by
  have hCC : c * C + ch < C * C := by
    calc c * C + ch < c * C + C := by omega
      _ = (c + 1) * C := by ring
      _ ≤ C * C := Nat.mul_le_mul_right C (by omega)
  have hCCpos : 0 < C * C := Nat.mul_pos (by omega) (by omega)
  have hassoc : band * (C * C) + c * C + ch = C * C * band + (c * C + ch) := by ring
  have hmod : (band * (C * C) + c * C + ch) % (C * C) = c * C + ch := by
    rw [hassoc, Nat.mul_add_mod, Nat.mod_eq_of_lt hCC]
  have hdiv : (band * (C * C) + c * C + ch) / (C * C) = band := by
    rw [hassoc, Nat.mul_add_div hCCpos, Nat.div_eq_of_lt hCC, Nat.add_zero]
  have hmodC : (band * (C * C) + c * C + ch) % C = ch := by
    have he : band * (C * C) + c * C + ch = C * (band * C + c) + ch := by ring
    rw [he, Nat.mul_add_mod, Nat.mod_eq_of_lt hch]
  have hdivC : (c * C + ch) / C = c := by
    rw [mul_comm c C, Nat.mul_add_div (by omega), Nat.div_eq_of_lt hch, Nat.add_zero]
  unfold deltaU
  rw [hmod, hdiv, hdivC, hmodC]

/-- The value of `V` produced by the input transform at the flat index read
by the GEMM for band `band`, channel `ch`, and the tile containing `(yy, xx)`. -/
theorem winIn_V_value (n : ℕ) (s : α) (input V0 : ℕ → α) (C ch yy xx : ℕ)
    (hn : 0 < n) (hC : 0 < C) (hch : ch < C) (hyy : yy < n) (hxx : xx < n)
    (band : ℕ) (hband : band < 36) :
    winograd_transform_in n s input V0 C
        (band * (C * WP n) + ch * WP n + (yy / 4 * WTILES n + xx / 4))
      = tileBand s (inPad n input ch) (4 * (yy / 4)) (4 * (xx / 4))
          (band / 6) (band % 6) := by
  have hWT : 0 < WTILES n := by
    unfold WTILES
    omega
  have hWP : 0 < WP n := by
    unfold WP
    exact Nat.mul_pos hWT hWT
  have hxW : xx / 4 < WTILES n := by
    unfold WTILES
    omega
  have hb : yy / 4 * WTILES n + xx / 4 < WP n := by
    have hyW : yy / 4 < WTILES n := by
      unfold WTILES
      omega
    unfold WP
    calc yy / 4 * WTILES n + xx / 4 < yy / 4 * WTILES n + WTILES n := by omega
      _ = (yy / 4 + 1) * WTILES n := by ring
      _ ≤ WTILES n * WTILES n := Nat.mul_le_mul_right (WTILES n) (by omega)
  have ht : ch * WP n + (yy / 4 * WTILES n + xx / 4) < C * WP n := by
    calc ch * WP n + (yy / 4 * WTILES n + xx / 4) < ch * WP n + WP n := by omega
      _ = (ch + 1) * WP n := by ring
      _ ≤ C * WP n := Nat.mul_le_mul_right (WP n) (by omega)
  have hV := winIn_char n s input V0 C hn hC band
    (ch * WP n + (yy / 4 * WTILES n + xx / 4)) hband ht
  rw [← Nat.add_assoc] at hV
  rw [hV]
  have hdA : (ch * WP n + (yy / 4 * WTILES n + xx / 4)) / WP n = ch := by
    rw [mul_comm ch (WP n), Nat.mul_add_div hWP, Nat.div_eq_of_lt hb, Nat.add_zero]
  have hdB : (ch * WP n + (yy / 4 * WTILES n + xx / 4)) % WP n
      = yy / 4 * WTILES n + xx / 4 := by
    rw [mul_comm ch (WP n), Nat.mul_add_mod, Nat.mod_eq_of_lt hb]
  have hdC : (yy / 4 * WTILES n + xx / 4) / WTILES n = yy / 4 := by
    rw [mul_comm (yy / 4) (WTILES n), Nat.mul_add_div hWT, Nat.div_eq_of_lt hxW,
      Nat.add_zero]
  have hdD : (ch * WP n + (yy / 4 * WTILES n + xx / 4)) % WTILES n = xx / 4 := by
    have he : ch * WP n + (yy / 4 * WTILES n + xx / 4)
        = WTILES n * (ch * WTILES n + yy / 4) + xx / 4 := by
      unfold WP
      ring
    rw [he, Nat.mul_add_mod, Nat.mod_eq_of_lt hxW]
  unfold tvIn
  rw [hdA, hdB, hdC, hdD]

set_option maxHeartbeats 800000 in
/-- C3 (amended): round-tripping through the Winograd input transform, the
band GEMM with the Winograd-domain weights `deltaU` of the identity-like
(center-delta) 3×3 kernel, and the Winograd output transform reproduces the
original spatial plane at every in-bounds position, interpreting the
transform constants exactly (`s * s = 2`).  With the literal identity-GEMM
`U` of the claim as stated the round trip fails (see the counterexample). -/
theorem claim_C3_amended (n : ℕ) (s : α) (hs : s * s = 2)
    (input V0 M0 Y0 : ℕ → α) (C ch yy xx : ℕ)
    (hn : 0 < n) (hC : 0 < C) (hch : ch < C) (hyy : yy < n) (hxx : xx < n) :
    winograd_transform_out n s
        (winograd_sgemm n (deltaU s C)
          (winograd_transform_in n s input V0 C) M0 C C)
        Y0 C (ch * (n * n) + yy * n + xx)
      = input (ch * (n * n) + yy * n + xx) := by
  have hWT : 0 < WTILES n := by
    unfold WTILES
    omega
  have hyW : yy / 4 < WTILES n := by
    unfold WTILES
    omega
  have hxW : xx / 4 < WTILES n := by
    unfold WTILES
    omega
  have hb : yy / 4 * WTILES n + xx / 4 < WP n := by
    unfold WP
    calc yy / 4 * WTILES n + xx / 4 < yy / 4 * WTILES n + WTILES n := by omega
      _ = (yy / 4 + 1) * WTILES n := by ring
      _ ≤ WTILES n * WTILES n := Nat.mul_le_mul_right (WTILES n) (by omega)
  rw [winOut_char n s _ Y0 C ch yy xx hch hyy hxx]
  rw [oVal_sgemm n s (deltaU s C) (winograd_transform_in n s input V0 C) M0 C C
    ch (yy / 4 * WTILES n + xx / 4) (yy % 4) (xx % 4) hch hb]
  have hinner : ∀ q ∈ Finset.range 6, ∀ q' ∈ Finset.range 6,
      (∑ c ∈ Finset.range C,
        deltaU s C ((q' * 6 + q) * (C * C) + c * C + ch)
          * winograd_transform_in n s input V0 C
              ((q' * 6 + q) * (C * WP n) + c * WP n
                + (yy / 4 * WTILES n + xx / 4)))
        = uCoeff s q' * uCoeff s q
            * tileBand s (inPad n input ch) (4 * (yy / 4)) (4 * (xx / 4)) q' q := by
    intro q hq q' hq'
    have hq6 := Finset.mem_range.mp hq
    have hq'6 := Finset.mem_range.mp hq'
    have hband : q' * 6 + q < 36 := by omega
    have hdE : (q' * 6 + q) / 6 = q' := by
      rw [mul_comm q' 6, Nat.mul_add_div (by norm_num), Nat.div_eq_of_lt hq6,
        Nat.add_zero]
    have hdF : (q' * 6 + q) % 6 = q := by
      rw [mul_comm q' 6, Nat.mul_add_mod, Nat.mod_eq_of_lt hq6]
    have hstep : ∀ c ∈ Finset.range C,
        deltaU s C ((q' * 6 + q) * (C * C) + c * C + ch)
          * winograd_transform_in n s input V0 C
              ((q' * 6 + q) * (C * WP n) + c * WP n
                + (yy / 4 * WTILES n + xx / 4))
        = if c = ch then
            uCoeff s q' * uCoeff s q
              * tileBand s (inPad n input ch) (4 * (yy / 4)) (4 * (xx / 4)) q' q
          else 0 := by
      intro c hc
      rw [deltaU_eval s C (q' * 6 + q) c ch (Finset.mem_range.mp hc) hch]
      by_cases hcch : c = ch
      · subst hcch
        rw [if_pos rfl, if_pos rfl]
        rw [winIn_V_value n s input V0 C c yy xx hn hC (Finset.mem_range.mp hc)
          hyy hxx (q' * 6 + q) hband]
        rw [hdE, hdF]
      · rw [if_neg hcch, if_neg hcch, zero_mul]
    rw [Finset.sum_congr rfl hstep,
      Finset.sum_ite_eq' (Finset.range C) ch
        (fun _ => uCoeff s q' * uCoeff s q
          * tileBand s (inPad n input ch) (4 * (yy / 4)) (4 * (xx / 4)) q' q),
      if_pos (Finset.mem_range.mpr hch)]
  have hcontr1 : ∀ k : ℕ,
      ∑ q' ∈ Finset.range 6, At s (yy % 4) q' * uCoeff s q'
          * T1v s (inPad n input ch) (4 * (yy / 4)) (4 * (xx / 4)) q' k
        = inPad n input ch (4 * (yy / 4) + (yy % 4 + 1)) (4 * (xx / 4) + k) := by
    intro k
    have h := R_contract s hs (yy % 4) (Nat.mod_lt yy (by norm_num))
      (fun r => inPad n input ch (4 * (yy / 4) + r) (4 * (xx / 4) + k))
    simp only [] at h
    unfold T1v
    exact h
  have hstepQ : ∀ q ∈ Finset.range 6,
      (∑ q' ∈ Finset.range 6, At s (yy % 4) q'
        * (∑ c ∈ Finset.range C,
            deltaU s C ((q' * 6 + q) * (C * C) + c * C + ch)
              * winograd_transform_in n s input V0 C
                  ((q' * 6 + q) * (C * WP n) + c * WP n
                    + (yy / 4 * WTILES n + xx / 4))))
        * At s (xx % 4) q
      = At s (xx % 4) q * uCoeff s q
          * (∑ k ∈ Finset.range 6, Bt s q k
              * inPad n input ch (4 * (yy / 4) + (yy % 4 + 1))
                  (4 * (xx / 4) + k)) := by
    intro q hq
    have h1 : ∑ q' ∈ Finset.range 6, At s (yy % 4) q'
        * (∑ c ∈ Finset.range C,
            deltaU s C ((q' * 6 + q) * (C * C) + c * C + ch)
              * winograd_transform_in n s input V0 C
                  ((q' * 6 + q) * (C * WP n) + c * WP n
                    + (yy / 4 * WTILES n + xx / 4)))
        = ∑ q' ∈ Finset.range 6, At s (yy % 4) q'
            * (uCoeff s q' * uCoeff s q
              * tileBand s (inPad n input ch) (4 * (yy / 4)) (4 * (xx / 4)) q' q) :=
      Finset.sum_congr rfl fun q' hq' => by rw [hinner q hq q' hq']
    rw [h1]
    have e1 : ∀ q' ∈ Finset.range 6, At s (yy % 4) q'
        * (uCoeff s q' * uCoeff s q
          * tileBand s (inPad n input ch) (4 * (yy / 4)) (4 * (xx / 4)) q' q)
        = ∑ k ∈ Finset.range 6, uCoeff s q
            * (At s (yy % 4) q' * uCoeff s q'
              * T1v s (inPad n input ch) (4 * (yy / 4)) (4 * (xx / 4)) q' k
              * Bt s q k) := by
      intro q' _
      unfold tileBand
      simp only [Finset.mul_sum]
      exact Finset.sum_congr rfl fun k _ => by ring
    rw [Finset.sum_congr rfl e1, Finset.sum_comm]
    have e2 : ∀ k ∈ Finset.range 6,
        ∑ q' ∈ Finset.range 6, uCoeff s q
            * (At s (yy % 4) q' * uCoeff s q'
              * T1v s (inPad n input ch) (4 * (yy / 4)) (4 * (xx / 4)) q' k
              * Bt s q k)
        = uCoeff s q
            * (inPad n input ch (4 * (yy / 4) + (yy % 4 + 1)) (4 * (xx / 4) + k)
              * Bt s q k) := by
      intro k _
      rw [← hcontr1 k, Finset.sum_mul, Finset.mul_sum]
    rw [Finset.sum_congr rfl e2, ← Finset.mul_sum]
    have e3 : ∑ k ∈ Finset.range 6,
        inPad n input ch (4 * (yy / 4) + (yy % 4 + 1)) (4 * (xx / 4) + k)
          * Bt s q k
        = ∑ k ∈ Finset.range 6, Bt s q k
            * inPad n input ch (4 * (yy / 4) + (yy % 4 + 1)) (4 * (xx / 4) + k) :=
      Finset.sum_congr rfl fun k _ => mul_comm _ _
    rw [e3]
    ring
  rw [Finset.sum_congr rfl hstepQ]
  have hfin := R_contract s hs (xx % 4) (Nat.mod_lt xx (by norm_num))
    (fun k => inPad n input ch (4 * (yy / 4) + (yy % 4 + 1)) (4 * (xx / 4) + k))
  simp only [] at hfin
  rw [hfin]
  have hy1 : 4 * (yy / 4) + (yy % 4 + 1) = yy + 1 := by omega
  have hx1 : 4 * (xx / 4) + (xx % 4 + 1) = xx + 1 := by omega
  rw [hy1, hx1]
  unfold inPad
  rw [if_pos ⟨by omega, by omega, by omega, by omega⟩]
  norm_num

/-- Witness for the amended claim C3 at a concrete instance: `n = 1`,
`C = 1`, `s = √2`, constant input `2` — the round trip through `deltaU`
returns the input value. -/
theorem claim_C3_witness :
    winograd_transform_out 1 (Real.sqrt 2)
        (winograd_sgemm 1 (deltaU (Real.sqrt 2) 1)
          (winograd_transform_in 1 (Real.sqrt 2) (fun _ => 2) (fun _ => 0) 1)
          (fun _ => 0) 1 1)
        (fun _ => 0) 1 (0 * (1 * 1) + 0 * 1 + 0)
      = (fun _ : ℕ => (2 : ℝ)) (0 * (1 * 1) + 0 * 1 + 0) :=
  claim_C3_amended 1 (Real.sqrt 2) (Real.mul_self_sqrt (by norm_num))
    (fun _ => 2) (fun _ => 0) (fun _ => 0) (fun _ => 0) 1 0 0 0
    (by norm_num) (by norm_num) (by norm_num) (by norm_num) (by norm_num)

/-- On the `1 × 1` board with constant input `1`, every Winograd-domain value
of the single tile is `Bt[i][1] * Bt[j][1]`. -/
theorem tileBand_const1 (s : α) (i j : ℕ) :
    tileBand s (inPad 1 (fun _ => (1 : α)) 0) 0 0 i j = Bt s i 1 * Bt s j 1 := by
  have hinP : ∀ y x : ℕ, inPad 1 (fun _ => (1 : α)) 0 y x
      = if y = 1 ∧ x = 1 then 1 else 0 := by
    intro y x
    unfold inPad
    by_cases h1 : 1 ≤ y ∧ y ≤ 1 ∧ 1 ≤ x ∧ x ≤ 1
    · rw [if_pos h1, if_pos ⟨by omega, by omega⟩]
    · rw [if_neg h1, if_neg]
      intro hc
      exact h1 ⟨by omega, by omega, by omega, by omega⟩
  unfold tileBand T1v
  simp only [hinP, zero_add]
  have hin : ∀ k ∈ Finset.range 6,
      (∑ k' ∈ Finset.range 6, Bt s i k' * if k' = 1 ∧ k = 1 then 1 else 0)
          * Bt s j k
        = (if k = 1 then Bt s i 1 else 0) * Bt s j k := by
    intro k _
    by_cases hk : k = 1
    · subst hk
      simp only [and_true, mul_ite, mul_one, mul_zero]
      rw [Finset.sum_ite_eq' (Finset.range 6) 1 (fun k' => Bt s i k'),
        if_pos (Finset.mem_range.mpr (by norm_num))]
      simp
    · simp [hk]
  rw [Finset.sum_congr rfl hin]
  simp only [ite_mul, zero_mul]
  rw [Finset.sum_ite_eq' (Finset.range 6) 1 (fun k => Bt s i 1 * Bt s j k),
    if_pos (Finset.mem_range.mpr (by norm_num))]

/-- The Winograd round trip with the literal identity-GEMM `U` of claim C3
annihilates the constant-one plane on the `1 × 1` board: the output value is
`(Σ_q At[0][q] · Bt[q][1])² = 0`, not the input value. -/
theorem roundtrip_idU_n1 (s : α) :
    winograd_transform_out 1 s
        (winograd_sgemm 1 (idU 1)
          (winograd_transform_in 1 s (fun _ => 1) (fun _ => 0) 1)
          (fun _ => 0) 1 1)
        (fun _ => 0) 1 0 = 0 := by
  have hWP : WP 1 = 1 := rfl
  have h := winOut_char 1 s
    (winograd_sgemm 1 (idU 1)
      (winograd_transform_in 1 s (fun _ => 1) (fun _ => 0) 1) (fun _ => 0) 1 1)
    (fun _ => 0) 1 0 0 0 (by norm_num) (by norm_num) (by norm_num)
  norm_num at h
  rw [h]
  rw [oVal_sgemm 1 s (idU 1)
    (winograd_transform_in 1 s (fun _ => 1) (fun _ => 0) 1) (fun _ => 0) 1 1
    0 0 0 0 (by norm_num) (by rw [hWP]; norm_num)]
  have hidU : ∀ m : ℕ, idU 1 m = (1 : α) := by
    intro m
    unfold idU
    rw [if_pos]
    simp [Nat.mod_one]
  have hsum : ∀ q ∈ Finset.range 6, ∀ q' ∈ Finset.range 6,
      (∑ c ∈ Finset.range 1,
        idU 1 ((q' * 6 + q) * (1 * 1) + c * 1 + 0)
          * winograd_transform_in 1 s (fun _ => 1) (fun _ => 0) 1
              ((q' * 6 + q) * (1 * WP 1) + c * WP 1 + 0))
        = Bt s q' 1 * Bt s q 1 := by
    intro q hq q' hq'
    have hq6 := Finset.mem_range.mp hq
    have hq'6 := Finset.mem_range.mp hq'
    rw [Finset.sum_range_one, hidU, one_mul]
    rw [show (q' * 6 + q) * (1 * WP 1) + 0 * WP 1 + 0 = (q' * 6 + q) * (1 * WP 1) + 0
      from by ring]
    have h3 := winIn_char 1 s (fun _ => (1 : α)) (fun _ => 0) 1
      (by norm_num) (by norm_num) (q' * 6 + q) 0 (by omega) (by rw [hWP]; norm_num)
    rw [h3]
    unfold tvIn
    simp only [Nat.zero_div, Nat.zero_mod, mul_zero]
    rw [show (q' * 6 + q) / 6 = q' from by
        rw [mul_comm q' 6, Nat.mul_add_div (by norm_num), Nat.div_eq_of_lt hq6,
          Nat.add_zero],
      show (q' * 6 + q) % 6 = q from by
        rw [mul_comm q' 6, Nat.mul_add_mod, Nat.mod_eq_of_lt hq6]]
    exact tileBand_const1 s q' q
  have hz : ∑ q ∈ Finset.range 6, At s 0 q * Bt s q 1 = 0 := by
    simp only [Finset.sum_range_succ, Finset.sum_range_zero]
    unfold At Bt AtL BtL
    norm_num
  have hmain : ∀ q ∈ Finset.range 6,
      (∑ q' ∈ Finset.range 6, At s 0 q'
        * (∑ c ∈ Finset.range 1,
            idU 1 ((q' * 6 + q) * (1 * 1) + c * 1 + 0)
              * winograd_transform_in 1 s (fun _ => 1) (fun _ => 0) 1
                  ((q' * 6 + q) * (1 * WP 1) + c * WP 1 + 0)))
        * At s 0 q = 0 := by
    intro q hq
    have e1 : ∑ q' ∈ Finset.range 6, At s 0 q'
        * (∑ c ∈ Finset.range 1,
            idU 1 ((q' * 6 + q) * (1 * 1) + c * 1 + 0)
              * winograd_transform_in 1 s (fun _ => 1) (fun _ => 0) 1
                  ((q' * 6 + q) * (1 * WP 1) + c * WP 1 + 0))
        = ∑ q' ∈ Finset.range 6, At s 0 q' * (Bt s q' 1 * Bt s q 1) :=
      Finset.sum_congr rfl fun q' hq' => by rw [hsum q hq q' hq']
    have e2 : ∑ q' ∈ Finset.range 6, At s 0 q' * (Bt s q' 1 * Bt s q 1)
        = (∑ q' ∈ Finset.range 6, At s 0 q' * Bt s q' 1) * Bt s q 1 := by
      rw [Finset.sum_mul]
      exact Finset.sum_congr rfl fun q' _ => by ring
    rw [e1, e2, hz, zero_mul, zero_mul]
  rw [Finset.sum_congr rfl hmain, Finset.sum_const_zero]

/-- Counterexample to claim C3 as stated: with the literal identity-GEMM
`U` (`K = C = 1`, each band of `V` mapped through unchanged), the round trip
on the `1 × 1` board maps the constant-one plane to `0`, not back to `1`:
`At · Bt` is not a selection matrix, so the output transform does not invert
the input transform without the kernel's band gains. -/
theorem claim_C3_counterexample :
    winograd_transform_out 1 (Real.sqrt 2)
        (winograd_sgemm 1 (idU 1)
          (winograd_transform_in 1 (Real.sqrt 2) (fun _ => 1) (fun _ => 0) 1)
          (fun _ => 0) 1 1)
        (fun _ => 0) 1 0
      ≠ (fun _ : ℕ => (1 : ℝ)) 0 := by
  rw [roundtrip_idU_n1 (Real.sqrt 2)]
  norm_num

end CPUPipe
